import Mathlib

/-!
Verification of the obsidian-base-board plugin (a kanban board view over
markdown files with YAML frontmatter).

The development shallowly embeds the plugin's state-changing operations:

* `src/constants.ts`: `NO_VALUE_COLUMN`, `ORDER_PROPERTY`, `sanitizeFilename`.
* `src/kanban-view.ts`: `getColumnName`, `getColumns`, `getCardSourceColumn`,
  `handleCardDrop`, `handleRenameColumn`, the add/delete column handlers and
  the `isUpdating` / `pendingRender` render-suppression flags.
* `src/drag-drop.ts`: the `orderedPaths` list built from the DOM at drop time
  and `getDragAfterElement` (nearest-neighbor midpoint comparison).
* `src/card-manager.ts` (`CardManager`): `createNewCard` free-path search and
  templated frontmatter, and the rename-failure path of `startCardRename`.

The host application's vault is modelled as an association list from file
paths to frontmatter maps; the host's `processFrontMatter` is an in-place
update of that list.  Frontmatter values are strings or numbers, which is all
the plugin ever writes.
-/

namespace BaseBoard

/-- Column label used when an entry has no value for the groupBy property
(`NO_VALUE_COLUMN` in `src/constants.ts`). -/
def NO_VALUE_COLUMN : String := "(No value)"

/-- Frontmatter property that controls card ordering within a column
(`ORDER_PROPERTY` in `src/constants.ts`). -/
def ORDER_PROPERTY : String := "kanban_order"

/-- The characters matched by `UNSAFE_FILENAME_CHARS` in `src/constants.ts`. -/
def UNSAFE_FILENAME_CHARS : List Char := ['\\', '/', ':', '*', '?', '\"', '<', '>', '|']

/-- `sanitizeFilename` from `src/constants.ts`: `name.replace(UNSAFE_FILENAME_CHARS, "")`
with a global regex, i.e. every unsafe character is removed. -/
def sanitizeFilename (name : String) : String :=
  String.mk (name.data.filter (fun c => !(UNSAFE_FILENAME_CHARS.contains c)))

/-- A frontmatter value: the plugin only ever writes strings (group names)
and numbers (order indices). -/
inductive Value where
  | str (s : String)
  | num (n : Int)
  deriving DecidableEq, Repr

/-- A parsed frontmatter object: association list from property names to values. -/
def FrontMatter := List (String × Value)

instance : DecidableEq FrontMatter := by
  unfold FrontMatter
  infer_instance

/-- The host vault, modelled as an association list from file paths to the
frontmatter of the (markdown) file at that path.  A path resolves
(`getAbstractFileByPath` returns a `TFile`) iff it occurs in the list. -/
def Vault := List (String × FrontMatter)

instance : DecidableEq Vault := by
  unfold Vault
  infer_instance

/-- Reading a frontmatter property (`fm[key]`). -/
def fmGet (key : String) : FrontMatter → Option Value
  | [] => none
  | e :: rest => if e.1 = key then some e.2 else fmGet key rest

/-- Writing a frontmatter property (`fm[key] = v`): replaces the first binding
of `key` or appends a new one. -/
def fmSet (key : String) (v : Value) : FrontMatter → FrontMatter
  | [] => [(key, v)]
  | e :: rest => if e.1 = key then (key, v) :: rest else e :: fmSet key v rest

/-- Deleting a frontmatter property (`delete fm[key]`). -/
def fmDel (key : String) : FrontMatter → FrontMatter
  | [] => []
  | e :: rest => if e.1 = key then fmDel key rest else e :: fmDel key rest

/-- `app.vault.getAbstractFileByPath`: the frontmatter of the file at `path`,
or `none` when no file resolves. -/
def vaultGet (path : String) : Vault → Option FrontMatter
  | [] => none
  | e :: rest => if e.1 = path then some e.2 else vaultGet path rest

/-- `app.fileManager.processFrontMatter(file, f)`: atomically rewrite the
frontmatter of the file at `path` with `f`. -/
def processFrontMatter (path : String) (f : FrontMatter → FrontMatter) (vault : Vault) : Vault :=
  vault.map (fun e => if e.1 = path then (e.1, f e.2) else e)

-- Basic lemmas about the frontmatter / vault operations.

theorem fmGet_fmSet_self (key : String) (v : Value) (fm : FrontMatter) :
    fmGet key (fmSet key v fm) = some v := by
  induction fm with
  | nil => simp [fmGet, fmSet]
  | cons e rest ih =>
      by_cases h : e.1 = key
      · simp [fmSet, h, fmGet]
      · simp [fmSet, h, fmGet, ih]

theorem fmGet_fmSet_ne (key key' : String) (v : Value) (fm : FrontMatter)
    (h : key ≠ key') : fmGet key (fmSet key' v fm) = fmGet key fm := by
  induction fm with
  | nil => simp [fmGet, fmSet, Ne.symm h]
  | cons e rest ih =>
      by_cases he : e.1 = key'
      · rw [fmSet, if_pos he]
        rw [fmGet, if_neg (by simp [Ne.symm h]), fmGet, if_neg (fun hx => h (hx.symm.trans he))]
      · rw [fmSet, if_neg he]
        by_cases hk : e.1 = key
        · rw [fmGet, if_pos hk, fmGet, if_pos hk]
        · rw [fmGet, if_neg hk, fmGet, if_neg hk, ih]

theorem fmGet_fmDel_self (key : String) (fm : FrontMatter) :
    fmGet key (fmDel key fm) = none := by
  induction fm with
  | nil => simp [fmGet, fmDel]
  | cons e rest ih =>
      by_cases h : e.1 = key
      · rw [fmDel, if_pos h, ih]
      · rw [fmDel, if_neg h, fmGet, if_neg h, ih]

theorem fmGet_fmDel_ne (key key' : String) (fm : FrontMatter)
    (h : key ≠ key') : fmGet key (fmDel key' fm) = fmGet key fm := by
  induction fm with
  | nil => simp [fmDel]
  | cons e rest ih =>
      by_cases he : e.1 = key'
      · rw [fmDel, if_pos he, ih, fmGet, if_neg (fun hx => h (hx.symm.trans he))]
      · rw [fmDel, if_neg he]
        by_cases hk : e.1 = key
        · rw [fmGet, if_pos hk, fmGet, if_pos hk]
        · rw [fmGet, if_neg hk, fmGet, if_neg hk, ih]

theorem vaultGet_processFrontMatter_self (path : String) (f : FrontMatter → FrontMatter)
    (vault : Vault) :
    vaultGet path (processFrontMatter path f vault) = (vaultGet path vault).map f := by
  induction vault with
  | nil => simp [vaultGet, processFrontMatter]
  | cons e rest ih =>
      by_cases h : e.1 = path
      · simp [processFrontMatter, h, vaultGet]
      · simp only [processFrontMatter, List.map_cons, if_neg h]
        simp only [processFrontMatter] at ih
        simp [vaultGet, h, ih]

theorem vaultGet_processFrontMatter_ne (path q : String) (f : FrontMatter → FrontMatter)
    (vault : Vault) (h : q ≠ path) :
    vaultGet q (processFrontMatter path f vault) = vaultGet q vault := by
  induction vault with
  | nil => simp [vaultGet, processFrontMatter]
  | cons e rest ih =>
      by_cases he : e.1 = path
      · simp only [processFrontMatter, List.map_cons, if_pos he]
        simp only [processFrontMatter] at ih
        simp [vaultGet, he, Ne.symm h, ih]
      · simp only [processFrontMatter, List.map_cons, if_neg he]
        simp only [processFrontMatter] at ih
        by_cases hq : e.1 = q
        · simp [vaultGet, hq]
        · simp [vaultGet, hq, ih]

theorem vaultGet_processFrontMatter_isSome (path q : String) (f : FrontMatter → FrontMatter)
    (vault : Vault) :
    (vaultGet q (processFrontMatter path f vault)).isSome = (vaultGet q vault).isSome := by
  by_cases h : q = path
  · subst h; rw [vaultGet_processFrontMatter_self]; cases vaultGet q vault <;> simp
  · rw [vaultGet_processFrontMatter_ne _ _ _ _ h]

/-- A JavaScript primitive as it reaches `String(...)` conversions in
`getColumnName`. -/
inductive Prim where
  | pstr (s : String)
  | pnum (n : Int)
  | pbool (b : Bool)
  deriving DecidableEq, Repr

/-- JavaScript `String(p)` for the primitives the board can meet. -/
def primToString : Prim → String
  | .pstr s => s
  | .pnum n => toString n
  | .pbool b => cond b "true" "false"

/-- The group key of a `BasesEntryGroup` as `getColumnName` inspects it:
`undefined`, `null`, a `NullValue` instance, an object with a `value`
property, or a primitive. -/
inductive BaseKey where
  | undef
  | jsNull
  | nullValue
  | objVal (v : Prim)
  | prim (p : Prim)
  deriving DecidableEq, Repr

/-- `KanbanView.getColumnName` (`src/kanban-view.ts`): the sentinel
`NO_VALUE_COLUMN` for `undefined` / `null` / `NullValue` keys, otherwise the
string form of the key (unwrapping a `value` property if present). -/
def getColumnName : BaseKey → String
  | .undef => NO_VALUE_COLUMN
  | .jsNull => NO_VALUE_COLUMN
  | .nullValue => NO_VALUE_COLUMN
  | .objVal v => primToString v
  | .prim p => primToString p

/-- One `BasesEntryGroup`: a group key and the member entries' file paths
(`entry.file?.path`, which may be `undefined`). -/
structure Group where
  key : BaseKey
  entries : List (Option String)
  deriving DecidableEq, Repr

/-- The state a `KanbanView` operates on: the host vault, the grouped data
most recently rendered (`currentGroups`), the configured group-by property
(`getGroupByProperty()`, already stripped of a `note.` namespace), the
per-base stored column configuration (`plugin.getColumnConfig`), plus
observable outputs: notices shown, file renames attempted, renders
scheduled, and the `isUpdating` / `pendingRender` batch flags. -/
structure ViewState where
  vault : Vault
  currentGroups : List Group
  groupByProp : Option String
  storedColumns : Option (List String)
  notices : List String
  renameAttempts : List (String × String)
  rendersScheduled : Nat
  isUpdating : Bool
  pendingRender : Bool
  deriving DecidableEq

/-- The column names derived from the grouped data:
`currentGroups.map((g) => this.getColumnName(g.key))`. -/
def dataColumns (st : ViewState) : List String :=
  st.currentGroups.map (fun g => getColumnName g.key)

/-- The merge loop inside `getColumns`: start from the stored list and append
each data column not already present. -/
def mergeColumns (stored cols : List String) : List String :=
  cols.foldl (fun result col => if col ∈ result then result else result ++ [col]) stored

/-- `KanbanView.getColumns` (`src/kanban-view.ts`): the stored column list,
extended with any data-derived columns not already present; or just the
data-derived columns when no non-empty list is stored. -/
def getColumns (st : ViewState) : List String :=
  match st.storedColumns with
  | some stored => if stored.length > 0 then mergeColumns stored (dataColumns st) else dataColumns st
  | none => dataColumns st

/-- `KanbanView.getCardSourceColumn`: the column name of the first group
containing an entry whose path is `filePath`, if any. -/
def getCardSourceColumn (filePath : String) : List Group → Option String
  | [] => none
  | g :: rest =>
      if (some filePath) ∈ g.entries then some (getColumnName g.key)
      else getCardSourceColumn filePath rest

/-- The `for` loop in step 2 of `KanbanView.handleCardDrop`: write
`kanban_order := i` into each resolvable file of `orderedPaths`, `i` being
the running index (files that do not resolve are skipped). -/
def writeOrders (vault : Vault) (i : Nat) : List String → Vault
  | [] => vault
  | p :: rest =>
      let vault' := if (vaultGet p vault).isSome then
          processFrontMatter p (fmSet ORDER_PROPERTY (Value.num i)) vault
        else vault
      writeOrders vault' (i + 1) rest

/-- `KanbanView.handleCardDrop` (`src/kanban-view.ts`): with no group-by
property configured it does nothing; otherwise it sets the batch flags,
moves the dragged card's group-by frontmatter when the source column
differs from the target (deleting the property when the target is the
`NO_VALUE_COLUMN`), renumbers `kanban_order` over `orderedPaths`, clears
the busy flag and schedules a render if a data update arrived meanwhile. -/
def handleCardDrop (filePath targetColumnName : String) (orderedPaths : List String)
    (st : ViewState) : ViewState :=
  match st.groupByProp with
  | none => st
  | some groupByProp =>
    let st1 := { st with isUpdating := true, pendingRender := false }
    let st2 :=
      if (vaultGet filePath st1.vault).isSome then
        if getCardSourceColumn filePath st1.currentGroups ≠ some targetColumnName then
          let upd : FrontMatter → FrontMatter := fun fm =>
            if targetColumnName = NO_VALUE_COLUMN then fmDel groupByProp fm
            else fmSet groupByProp (Value.str targetColumnName) fm
          { st1 with vault := processFrontMatter filePath upd st1.vault }
        else st1
      else st1
    let st3 := { st2 with vault := writeOrders st2.vault 0 orderedPaths }
    let st4 := { st3 with isUpdating := false }
    if st4.pendingRender then
      { st4 with pendingRender := false, rendersScheduled := st4.rendersScheduled + 1 }
    else st4

-- Lemmas about `writeOrders`.

/-- `writeOrders` never changes which paths resolve. -/
theorem writeOrders_isSome (paths : List String) (vault : Vault) (i : Nat) (p : String) :
    (vaultGet p (writeOrders vault i paths)).isSome = (vaultGet p vault).isSome := by
  induction paths generalizing vault i with
  | nil => rfl
  | cons q rest ih =>
      rw [writeOrders]
      by_cases hq : (vaultGet q vault).isSome
      · simp only [if_pos hq, ih, vaultGet_processFrontMatter_isSome]
      · simp only [if_neg hq, ih]

/-- `writeOrders` only touches the `kanban_order` property: any other
property of any file is unchanged. -/
theorem writeOrders_fmGet_other (paths : List String) (vault : Vault) (i : Nat)
    (p key : String) (hk : key ≠ ORDER_PROPERTY) :
    (vaultGet p (writeOrders vault i paths)).bind (fmGet key) =
      (vaultGet p vault).bind (fmGet key) := by
  induction paths generalizing vault i with
  | nil => rfl
  | cons q rest ih =>
      rw [writeOrders]
      by_cases hq : (vaultGet q vault).isSome
      · simp only [if_pos hq, ih]
        by_cases hpq : p = q
        · subst hpq
          rw [vaultGet_processFrontMatter_self]
          cases vaultGet p vault with
          | none => rfl
          | some fm => simp [fmGet_fmSet_ne _ _ _ _ hk]
        · rw [vaultGet_processFrontMatter_ne _ _ _ _ hpq]
      · simp only [if_neg hq, ih]

/-- Paths not in the list are untouched by `writeOrders`. -/
theorem writeOrders_not_mem (paths : List String) (vault : Vault) (i : Nat)
    (p : String) (hp : p ∉ paths) :
    vaultGet p (writeOrders vault i paths) = vaultGet p vault := by
  induction paths generalizing vault i with
  | nil => rfl
  | cons q rest ih =>
      rw [writeOrders]
      have hpq : p ≠ q := fun h => hp (h ▸ List.mem_cons_self q rest)
      have hprest : p ∉ rest := fun h => hp (List.mem_cons_of_mem q h)
      by_cases hq : (vaultGet q vault).isSome
      · rw [if_pos hq, ih _ _ hprest, vaultGet_processFrontMatter_ne _ _ _ _ hpq]
      · rw [if_neg hq, ih _ _ hprest]

/-- The file at position `j` of a duplicate-free `orderedPaths`, when it
resolves, ends with `kanban_order = i + j`. -/
theorem writeOrders_get (paths : List String) (vault : Vault) (i : Nat)
    (hnd : paths.Nodup) (j : Nat) (hj : j < paths.length)
    (hres : (vaultGet (paths.get ⟨j, hj⟩) vault).isSome) :
    vaultGet (paths.get ⟨j, hj⟩) (writeOrders vault i paths) =
      (vaultGet (paths.get ⟨j, hj⟩) vault).map (fmSet ORDER_PROPERTY (Value.num (i + j))) := by
  induction paths generalizing vault i j with
  | nil => exact absurd hj (by simp)
  | cons q rest ih =>
      rcases List.nodup_cons.mp hnd with ⟨hqrest, hndrest⟩
      cases j with
      | zero =>
          simp only [show (q :: rest).get ⟨0, hj⟩ = q from rfl] at hres ⊢
          rw [writeOrders, if_pos hres, writeOrders_not_mem _ _ _ _ hqrest,
            vaultGet_processFrontMatter_self]
          simp
      | succ j' =>
          have hj' : j' < rest.length := by
            simp only [List.length_cons] at hj; omega
          simp only [show (q :: rest).get ⟨j' + 1, hj⟩ = rest.get (⟨j', hj'⟩ : Fin rest.length)
            from rfl] at hres ⊢
          have hne : rest.get (⟨j', hj'⟩ : Fin rest.length) ≠ q := by
            intro h
            exact hqrest (h ▸ List.get_mem rest j' hj')
          rw [writeOrders]
          by_cases hq : (vaultGet q vault).isSome
          · rw [if_pos hq]
            have hres' : (vaultGet (rest.get (⟨j', hj'⟩ : Fin rest.length))
                (processFrontMatter q (fmSet ORDER_PROPERTY (Value.num i)) vault)).isSome := by
              rw [vaultGet_processFrontMatter_ne _ _ _ _ hne]; exact hres
            rw [ih _ _ hndrest j' hj' hres', vaultGet_processFrontMatter_ne _ _ _ _ hne]
            push_cast
            ring_nf
          · rw [if_neg hq, ih _ _ hndrest j' hj' hres]
            push_cast
            ring_nf

/-- A child node of the cards container at drop time, as
`DragDropManager.handleCardDrop` (`src/drag-drop.ts`) classifies it: the
placeholder element, a card element (with its `--dragging` class state and
its `dataset.filePath`), or anything else.  There is a single placeholder
DOM node, so at most one child can be the placeholder. -/
inductive DomChild where
  | placeholder
  | card (dragging : Bool) (path : Option String)
  | other
  deriving DecidableEq, Repr

/-- Whether a child is the placeholder element. -/
def isPlaceholder : DomChild → Bool
  | .placeholder => true
  | _ => false

/-- What one loop iteration of `DragDropManager.handleCardDrop` pushes onto
`orderedPaths`: the dragged `filePath` at the placeholder, a card's
`dataset.filePath` when the card is not the dragged one and the path is a
non-empty string different from `filePath`, nothing otherwise. -/
def childContribution (filePath : String) : DomChild → List String
  | .placeholder => [filePath]
  | .card dragging p =>
      match dragging, p with
      | false, some path => if path ≠ "" ∧ path ≠ filePath then [path] else []
      | _, _ => []
  | .other => []

/-- The loop of `DragDropManager.handleCardDrop` over the container children. -/
def collectOrderedPaths (filePath : String) : List DomChild → List String
  | [] => []
  | c :: rest => childContribution filePath c ++ collectOrderedPaths filePath rest

/-- The full `orderedPaths` construction in `DragDropManager.handleCardDrop`:
the loop over the children followed by
`if (!orderedPaths.includes(filePath)) orderedPaths.push(filePath)`. -/
def buildOrderedPaths (filePath : String) (children : List DomChild) : List String :=
  let l := collectOrderedPaths filePath children
  if filePath ∈ l then l else l ++ [filePath]

/-- The dragged path occurs in the collected list once per placeholder child. -/
theorem count_collectOrderedPaths (filePath : String) (children : List DomChild) :
    (collectOrderedPaths filePath children).count filePath =
      children.countP isPlaceholder := by
  induction children with
  | nil => rfl
  | cons c rest ih =>
      rw [collectOrderedPaths, List.count_append, ih, List.countP_cons]
      cases c with
      | placeholder =>
          simp [childContribution, isPlaceholder, List.count_cons]
          omega
      | card dragging p =>
          cases dragging with
          | false =>
              cases p with
              | none => simp [childContribution, isPlaceholder]
              | some path =>
                  by_cases h : path ≠ "" ∧ path ≠ filePath
                  · simp [childContribution, isPlaceholder, h, List.count_cons, h.2]
                  · simp [childContribution, isPlaceholder, h]
          | true => simp [childContribution, isPlaceholder]
      | other => simp [childContribution, isPlaceholder]

/-- A list whose elements other than `a` are pairwise distinct and which
contains `a` at most once is duplicate-free. -/
theorem nodup_of_filter_nodup {α : Type} [DecidableEq α] (a : α) (l : List α)
    (hf : (l.filter (fun x => x ≠ a)).Nodup) (hc : l.count a ≤ 1) : l.Nodup := by
  induction l with
  | nil => exact List.nodup_nil
  | cons b rest ih =>
      by_cases hb : b = a
      · subst hb
        rw [List.count_cons_self] at hc
        have hnotmem : b ∉ rest := by
          intro hmem
          have := List.count_pos_iff.mpr hmem
          omega
        refine List.nodup_cons.mpr ⟨hnotmem, ih ?_ (by omega)⟩
        simpa [List.filter_cons] using hf
      · rw [List.count_cons_of_ne (Ne.symm hb)] at hc
        rw [List.filter_cons_of_pos (by simpa using hb)] at hf
        rcases List.nodup_cons.mp hf with ⟨hbf, hfrest⟩
        refine List.nodup_cons.mpr ⟨?_, ih hfrest hc⟩
        intro hmem
        exact hbf (List.mem_filter.mpr ⟨hmem, by simpa using hb⟩)

/-- `handleCardDrop` with a configured group-by property, a resolvable
dragged file, and a source column differing from the target: the resulting
vault is the order-renumbering pass applied after the group move. -/
theorem handleCardDrop_vault_eq (filePath targetColumnName : String)
    (orderedPaths : List String) (st : ViewState) (gp : String)
    (hgp : st.groupByProp = some gp)
    (hres : (vaultGet filePath st.vault).isSome = true)
    (hsrc : getCardSourceColumn filePath st.currentGroups ≠ some targetColumnName) :
    (handleCardDrop filePath targetColumnName orderedPaths st).vault =
      writeOrders (processFrontMatter filePath
        (fun fm => if targetColumnName = NO_VALUE_COLUMN then fmDel gp fm
          else fmSet gp (Value.str targetColumnName) fm) st.vault) 0 orderedPaths := by
  simp [handleCardDrop, hgp, hres, hsrc]

/-- `handleCardDrop` with a configured group-by property always ends with a
`writeOrders` pass over some vault in which exactly the same paths resolve
as in the initial vault. -/
theorem handleCardDrop_vault_shape (filePath targetColumnName : String)
    (orderedPaths : List String) (st : ViewState) (gp : String)
    (hgp : st.groupByProp = some gp) :
    ∃ v2 : Vault, (handleCardDrop filePath targetColumnName orderedPaths st).vault =
        writeOrders v2 0 orderedPaths ∧
      ∀ p, (vaultGet p v2).isSome = (vaultGet p st.vault).isSome := by
  by_cases hres : (vaultGet filePath st.vault).isSome = true
  · by_cases hsrc : getCardSourceColumn filePath st.currentGroups ≠ some targetColumnName
    · refine ⟨_, handleCardDrop_vault_eq filePath targetColumnName orderedPaths st gp
        hgp hres hsrc, ?_⟩
      intro p
      rw [vaultGet_processFrontMatter_isSome]
    · refine ⟨st.vault, ?_, fun p => rfl⟩
      simp [handleCardDrop, hgp, hres, hsrc]
  · refine ⟨st.vault, ?_, fun p => rfl⟩
    simp [handleCardDrop, hgp, hres]

/-- In the moving branch of `handleCardDrop`, the dragged file's group-by
property ends as the target column name, or deleted when the target is the
`(No value)` column. -/
theorem handleCardDrop_group_value
    (filePath targetColumnName : String) (orderedPaths : List String) (st : ViewState)
    (gp : String) (hgp : st.groupByProp = some gp) (hord : gp ≠ ORDER_PROPERTY)
    (hres : (vaultGet filePath st.vault).isSome = true)
    (hsrc : getCardSourceColumn filePath st.currentGroups ≠ some targetColumnName) :
    ∃ fm, vaultGet filePath (handleCardDrop filePath targetColumnName orderedPaths st).vault
        = some fm ∧
      fmGet gp fm = (if targetColumnName = NO_VALUE_COLUMN then none
        else some (Value.str targetColumnName)) := by
  have hveq := handleCardDrop_vault_eq filePath targetColumnName orderedPaths st gp hgp hres hsrc
  have hres2 : (vaultGet filePath (processFrontMatter filePath
      (fun fm => if targetColumnName = NO_VALUE_COLUMN then fmDel gp fm
        else fmSet gp (Value.str targetColumnName) fm) st.vault)).isSome = true := by
    rw [vaultGet_processFrontMatter_isSome]; exact hres
  have hfin : (vaultGet filePath
      (handleCardDrop filePath targetColumnName orderedPaths st).vault).isSome = true := by
    rw [hveq, writeOrders_isSome]; exact hres2
  obtain ⟨fm, hfm⟩ := Option.isSome_iff_exists.mp hfin
  refine ⟨fm, hfm, ?_⟩
  have hbind := writeOrders_fmGet_other orderedPaths (processFrontMatter filePath
      (fun fm => if targetColumnName = NO_VALUE_COLUMN then fmDel gp fm
        else fmSet gp (Value.str targetColumnName) fm) st.vault) 0 filePath gp hord
  rw [← hveq, hfm, vaultGet_processFrontMatter_self] at hbind
  obtain ⟨fm0, hfm0⟩ := Option.isSome_iff_exists.mp hres
  rw [hfm0] at hbind
  simp only [Option.some_bind, Option.map_some'] at hbind
  rw [hbind]
  by_cases ht : targetColumnName = NO_VALUE_COLUMN
  · simp [ht, fmGet_fmDel_self]
  · simp [ht, fmGet_fmSet_self]

/-- The renumbering pass of `handleCardDrop`: position `j` of a
duplicate-free `orderedPaths`, when the file resolves, ends with
`kanban_order = j`. -/
theorem handleCardDrop_order_value
    (filePath targetColumnName : String) (orderedPaths : List String) (st : ViewState)
    (gp : String) (hgp : st.groupByProp = some gp) (hnd : orderedPaths.Nodup)
    (j : Nat) (hj : j < orderedPaths.length)
    (hresj : (vaultGet (orderedPaths.get ⟨j, hj⟩) st.vault).isSome = true) :
    ∃ fm, vaultGet (orderedPaths.get ⟨j, hj⟩)
        (handleCardDrop filePath targetColumnName orderedPaths st).vault = some fm ∧
      fmGet ORDER_PROPERTY fm = some (Value.num j) := by
  obtain ⟨v2, hveq, hpres⟩ :=
    handleCardDrop_vault_shape filePath targetColumnName orderedPaths st gp hgp
  have hresj2 : (vaultGet (orderedPaths.get ⟨j, hj⟩) v2).isSome = true := by
    rw [hpres]; exact hresj
  have hw := writeOrders_get orderedPaths v2 0 hnd j hj hresj2
  rw [← hveq] at hw
  obtain ⟨fm0, hfm0⟩ := Option.isSome_iff_exists.mp hresj2
  rw [hfm0] at hw
  simp only [Option.map_some'] at hw
  refine ⟨_, hw, ?_⟩
  rw [fmGet_fmSet_self]
  norm_num

/-- C1 (amended): with a configured group-by property distinct from
`kanban_order`, a resolvable dragged file and a source column different from
the target column, `handleCardDrop` sets the dragged file's group-by
frontmatter property to the target column name — except when the target is
the `(No value)` column, in which case the property is deleted — and writes
`kanban_order = i` into the file at each position `i` of the duplicate-free
`orderedPaths` list (files that do not resolve are skipped). -/
theorem handleCardDrop_updates_group_and_renumbers
    (filePath targetColumnName : String) (orderedPaths : List String) (st : ViewState)
    (gp : String) (hgp : st.groupByProp = some gp) (hord : gp ≠ ORDER_PROPERTY)
    (hres : (vaultGet filePath st.vault).isSome = true)
    (hsrc : getCardSourceColumn filePath st.currentGroups ≠ some targetColumnName)
    (hnd : orderedPaths.Nodup) :
    (∃ fm, vaultGet filePath (handleCardDrop filePath targetColumnName orderedPaths st).vault
        = some fm ∧
      fmGet gp fm = (if targetColumnName = NO_VALUE_COLUMN then none
        else some (Value.str targetColumnName))) ∧
    ∀ (j : Nat) (hj : j < orderedPaths.length),
      (vaultGet (orderedPaths.get ⟨j, hj⟩) st.vault).isSome = true →
      ∃ fm, vaultGet (orderedPaths.get ⟨j, hj⟩)
          (handleCardDrop filePath targetColumnName orderedPaths st).vault = some fm ∧
        fmGet ORDER_PROPERTY fm = some (Value.num j) :=
  ⟨handleCardDrop_group_value filePath targetColumnName orderedPaths st gp hgp hord hres hsrc,
   fun j hj hresj =>
     handleCardDrop_order_value filePath targetColumnName orderedPaths st gp hgp hnd j hj hresj⟩

/-- The concrete board used to refute the unamended C1: one file `a.md` in
column `Todo`, group-by property `status`. -/
def sampleDropState : ViewState where
  vault := [("a.md", [("status", Value.str "Todo")])]
  currentGroups := [⟨BaseKey.prim (Prim.pstr "Todo"), [some "a.md"]⟩]
  groupByProp := some "status"
  storedColumns := none
  notices := []
  renameAttempts := []
  rendersScheduled := 0
  isUpdating := false
  pendingRender := false

/-- C1 counterexample: dropping `a.md` (source column `Todo`) onto the
`(No value)` column is an invocation whose source column differs from the
target, yet the group-by property `status` is deleted from the file, not set
to the string `"(No value)"` as the claim states. -/
theorem handleCardDrop_no_value_counterexample :
    getCardSourceColumn "a.md" sampleDropState.currentGroups ≠ some "(No value)" ∧
    ∃ fm, vaultGet "a.md" (handleCardDrop "a.md" "(No value)" ["a.md"] sampleDropState).vault
        = some fm ∧
      fmGet "status" fm = none ∧ fmGet "status" fm ≠ some (Value.str "(No value)") := by
  refine ⟨by decide, [(ORDER_PROPERTY, Value.num 0)], by decide, by decide, by decide⟩

/-- A concrete two-file board: `a.md` in column `Todo`, `b.md` in column
`Done`, grouped by `status`. -/
def sampleDropState2 : ViewState where
  vault := [("a.md", [("status", Value.str "Todo")]), ("b.md", [("status", Value.str "Done")])]
  currentGroups := [⟨BaseKey.prim (Prim.pstr "Todo"), [some "a.md"]⟩,
    ⟨BaseKey.prim (Prim.pstr "Done"), [some "b.md"]⟩]
  groupByProp := some "status"
  storedColumns := none
  notices := []
  renameAttempts := []
  rendersScheduled := 0
  isUpdating := false
  pendingRender := false

/-- Witness for C1: dropping `a.md` onto `Done` with order `[b.md, a.md]`. -/
theorem handleCardDrop_updates_group_and_renumbers_witness :
    (sampleDropState2.groupByProp = some "status" ∧ "status" ≠ ORDER_PROPERTY ∧
      (vaultGet "a.md" sampleDropState2.vault).isSome = true ∧
      getCardSourceColumn "a.md" sampleDropState2.currentGroups ≠ some "Done" ∧
      (["b.md", "a.md"] : List String).Nodup) ∧
    (∃ fm, vaultGet "a.md" (handleCardDrop "a.md" "Done" ["b.md", "a.md"]
        sampleDropState2).vault = some fm ∧
      fmGet "status" fm = (if "Done" = NO_VALUE_COLUMN then none
        else some (Value.str "Done"))) ∧
    ∀ (j : Nat) (hj : j < (["b.md", "a.md"] : List String).length),
      (vaultGet ((["b.md", "a.md"] : List String).get ⟨j, hj⟩) sampleDropState2.vault).isSome
          = true →
      ∃ fm, vaultGet ((["b.md", "a.md"] : List String).get ⟨j, hj⟩)
          (handleCardDrop "a.md" "Done" ["b.md", "a.md"] sampleDropState2).vault = some fm ∧
        fmGet ORDER_PROPERTY fm = some (Value.num j) :=
  ⟨⟨by decide, by decide, by decide, by decide, by decide⟩,
   handleCardDrop_updates_group_and_renumbers "a.md" "Done" ["b.md", "a.md"]
     sampleDropState2 "status" rfl (by decide) (by decide) (by decide) (by decide)⟩

/-- C2: the `orderedPaths` list built from the DOM at drop time (given the
single placeholder node and pairwise-distinct card paths of a real DOM
container) contains no duplicates and the dragged card's path exactly once,
and after `handleCardDrop` the `kanban_order` values written to the target
column's files are exactly the indices `0..n-1` of `orderedPaths`. -/
theorem orderedPaths_unique_and_orders_are_indices
    (filePath targetColumnName : String) (children : List DomChild) (st : ViewState)
    (gp : String)
    (hph : children.countP isPlaceholder ≤ 1)
    (hcards : ((collectOrderedPaths filePath children).filter
      (fun p => p ≠ filePath)).Nodup)
    (hgp : st.groupByProp = some gp)
    (hres : ∀ p ∈ buildOrderedPaths filePath children, (vaultGet p st.vault).isSome = true) :
    (buildOrderedPaths filePath children).Nodup ∧
    (buildOrderedPaths filePath children).count filePath = 1 ∧
    ∀ (j : Nat) (hj : j < (buildOrderedPaths filePath children).length),
      ∃ fm, vaultGet ((buildOrderedPaths filePath children).get ⟨j, hj⟩)
          (handleCardDrop filePath targetColumnName (buildOrderedPaths filePath children)
            st).vault = some fm ∧
        fmGet ORDER_PROPERTY fm = some (Value.num j) := by
  have hcount : (collectOrderedPaths filePath children).count filePath ≤ 1 := by
    rw [count_collectOrderedPaths]; exact hph
  have hcnd : (collectOrderedPaths filePath children).Nodup :=
    nodup_of_filter_nodup filePath _ hcards hcount
  have hbuild : (buildOrderedPaths filePath children).Nodup ∧
      (buildOrderedPaths filePath children).count filePath = 1 := by
    rw [buildOrderedPaths]
    by_cases hmem : filePath ∈ collectOrderedPaths filePath children
    · rw [if_pos hmem]
      refine ⟨hcnd, ?_⟩
      have := List.count_pos_iff.mpr hmem
      omega
    · rw [if_neg hmem]
      constructor
      · rw [List.nodup_append]
        exact ⟨hcnd, List.nodup_singleton filePath, by
          intro x hx hx'
          rw [List.mem_singleton] at hx'
          exact hmem (hx' ▸ hx)⟩
      · rw [List.count_append]
        rw [List.count_eq_zero.mpr hmem]
        simp
  refine ⟨hbuild.1, hbuild.2, ?_⟩
  intro j hj
  exact handleCardDrop_order_value filePath targetColumnName _ st gp hgp hbuild.1 j hj
    (hres _ (List.get_mem _ j hj))

/-- Witness for C2: a container holding a kept card `b.md`, the dragged
card `a.md` (with its `--dragging` class), and the placeholder. -/
theorem orderedPaths_unique_and_orders_are_indices_witness :
    (((([DomChild.card false (some "b.md"), DomChild.card true (some "a.md"),
        DomChild.placeholder] : List DomChild)).countP isPlaceholder ≤ 1) ∧
      ((collectOrderedPaths "a.md" [DomChild.card false (some "b.md"),
        DomChild.card true (some "a.md"), DomChild.placeholder]).filter
          (fun p => p ≠ "a.md")).Nodup ∧
      sampleDropState2.groupByProp = some "status" ∧
      ∀ p ∈ buildOrderedPaths "a.md" [DomChild.card false (some "b.md"),
        DomChild.card true (some "a.md"), DomChild.placeholder],
        (vaultGet p sampleDropState2.vault).isSome = true) ∧
    (buildOrderedPaths "a.md" [DomChild.card false (some "b.md"),
        DomChild.card true (some "a.md"), DomChild.placeholder]).Nodup ∧
    (buildOrderedPaths "a.md" [DomChild.card false (some "b.md"),
        DomChild.card true (some "a.md"), DomChild.placeholder]).count "a.md" = 1 ∧
    ∀ (j : Nat) (hj : j < (buildOrderedPaths "a.md" [DomChild.card false (some "b.md"),
        DomChild.card true (some "a.md"), DomChild.placeholder]).length),
      ∃ fm, vaultGet ((buildOrderedPaths "a.md" [DomChild.card false (some "b.md"),
          DomChild.card true (some "a.md"), DomChild.placeholder]).get ⟨j, hj⟩)
          (handleCardDrop "a.md" "Done" (buildOrderedPaths "a.md"
            [DomChild.card false (some "b.md"), DomChild.card true (some "a.md"),
              DomChild.placeholder]) sampleDropState2).vault = some fm ∧
        fmGet ORDER_PROPERTY fm = some (Value.num j) :=
  ⟨⟨by decide, by decide, by decide, by decide⟩,
   orderedPaths_unique_and_orders_are_indices "a.md" "Done"
     [DomChild.card false (some "b.md"), DomChild.card true (some "a.md"),
       DomChild.placeholder] sampleDropState2 "status"
     (by decide) (by decide) rfl (by decide)⟩

/-- C9: `getColumnName` maps `undefined`, `null` and `NullValue` keys to the
sentinel `(No value)`, and dropping a card onto the `(No value)` column
deletes the group-by property from the file instead of writing the string
`"(No value)"` into it. -/
theorem getColumnName_no_value_and_drop_deletes
    (st : ViewState) (filePath : String) (orderedPaths : List String) (gp : String)
    (hgp : st.groupByProp = some gp) (hord : gp ≠ ORDER_PROPERTY)
    (hres : (vaultGet filePath st.vault).isSome = true)
    (hsrc : getCardSourceColumn filePath st.currentGroups ≠ some NO_VALUE_COLUMN) :
    (∀ k : BaseKey, (k = BaseKey.undef ∨ k = BaseKey.jsNull ∨ k = BaseKey.nullValue) →
      getColumnName k = "(No value)") ∧
    ∃ fm, vaultGet filePath
        (handleCardDrop filePath NO_VALUE_COLUMN orderedPaths st).vault = some fm ∧
      fmGet gp fm = none ∧ fmGet gp fm ≠ some (Value.str NO_VALUE_COLUMN) := by
  constructor
  · rintro k (rfl | rfl | rfl) <;> rfl
  · obtain ⟨fm, hfm, hval⟩ := handleCardDrop_group_value filePath NO_VALUE_COLUMN
      orderedPaths st gp hgp hord hres hsrc
    rw [if_pos rfl] at hval
    exact ⟨fm, hfm, hval, by rw [hval]; exact fun h => Option.noConfusion h⟩

/-- Witness for C9: dropping `a.md` (source `Todo`) onto `(No value)`. -/
theorem getColumnName_no_value_and_drop_deletes_witness :
    (sampleDropState2.groupByProp = some "status" ∧ "status" ≠ ORDER_PROPERTY ∧
      (vaultGet "a.md" sampleDropState2.vault).isSome = true ∧
      getCardSourceColumn "a.md" sampleDropState2.currentGroups ≠ some NO_VALUE_COLUMN) ∧
    (∀ k : BaseKey, (k = BaseKey.undef ∨ k = BaseKey.jsNull ∨ k = BaseKey.nullValue) →
      getColumnName k = "(No value)") ∧
    ∃ fm, vaultGet "a.md"
        (handleCardDrop "a.md" NO_VALUE_COLUMN ["a.md"] sampleDropState2).vault = some fm ∧
      fmGet "status" fm = none ∧ fmGet "status" fm ≠ some (Value.str NO_VALUE_COLUMN) :=
  ⟨⟨rfl, by decide, by decide, by decide⟩,
   getColumnName_no_value_and_drop_deletes sampleDropState2 "a.md" ["a.md"] "status"
     rfl (by decide) (by decide) (by decide)⟩

/-- The duplicate-column notice text: `Column "name" already exists.` -/
def columnExistsNotice (name : String) : String :=
  "Column \"" ++ name ++ "\" already exists."

/-- The frontmatter loop in step 2 of `KanbanView.handleRenameColumn`: set the
group-by property of every member entry that carries a path resolving to a
file. -/
def renameWrites (gp newName : String) : List (Option String) → Vault → Vault
  | [], vault => vault
  | none :: rest, vault => renameWrites gp newName rest vault
  | some path :: rest, vault =>
      let vault' := if (vaultGet path vault).isSome then
          processFrontMatter path (fmSet gp (Value.str newName)) vault
        else vault
      renameWrites gp newName rest vault'

/-- `KanbanView.handleRenameColumn` (`src/kanban-view.ts`): reject a name that
is already a column (notice, re-render, no change); otherwise set the batch
flags, store the column list with `oldName` mapped to `newName`, rewrite the
group-by property of every member entry, clear the busy flag and schedule a
render if a data update arrived meanwhile. -/
def handleRenameColumn (oldName newName : String) (entries : List (Option String))
    (st : ViewState) : ViewState :=
  let columns := getColumns st
  if newName ∈ columns then
    { st with notices := st.notices ++ [columnExistsNotice newName] }
  else
    let st1 := { st with isUpdating := true, pendingRender := false }
    let updatedColumns := columns.map (fun c => if c = oldName then newName else c)
    let st2 := { st1 with storedColumns := some updatedColumns }
    let st3 := match st2.groupByProp with
      | some gp => { st2 with vault := renameWrites gp newName entries st2.vault }
      | none => st2
    let st4 := { st3 with isUpdating := false }
    if st4.pendingRender then
      { st4 with pendingRender := false, rendersScheduled := st4.rendersScheduled + 1 }
    else st4

/-- The `InputModal` callback of `KanbanView.promptAddColumn`: reject a name
that is already a column (notice, no save); otherwise push the name and save. -/
def addColumn (name : String) (st : ViewState) : ViewState :=
  let columns := getColumns st
  if name ∈ columns then
    { st with notices := st.notices ++ [columnExistsNotice name] }
  else
    { st with storedColumns := some (columns ++ [name]) }

/-- `KanbanView.handleDeleteColumn`: save the column list with the deleted
name filtered out. -/
def handleDeleteColumn (columnName : String) (st : ViewState) : ViewState :=
  { st with storedColumns := some ((getColumns st).filter (fun c => c ≠ columnName)) }

-- Lemmas about `renameWrites` and `mergeColumns`.

/-- `renameWrites` never changes which paths resolve. -/
theorem renameWrites_isSome (gp newName : String) (entries : List (Option String))
    (vault : Vault) (p : String) :
    (vaultGet p (renameWrites gp newName entries vault)).isSome =
      (vaultGet p vault).isSome := by
  induction entries generalizing vault with
  | nil => rfl
  | cons e rest ih =>
      cases e with
      | none => rw [renameWrites, ih]
      | some path =>
          rw [renameWrites]
          by_cases hq : (vaultGet path vault).isSome
          · simp only [if_pos hq, ih, vaultGet_processFrontMatter_isSome]
          · simp only [if_neg hq, ih]

/-- Paths not named by any entry are untouched by `renameWrites`. -/
theorem renameWrites_not_mem (gp newName : String) (entries : List (Option String))
    (vault : Vault) (p : String) (hp : (some p) ∉ entries) :
    vaultGet p (renameWrites gp newName entries vault) = vaultGet p vault := by
  induction entries generalizing vault with
  | nil => rfl
  | cons e rest ih =>
      have hprest : (some p) ∉ rest := fun h => hp (List.mem_cons_of_mem e h)
      cases e with
      | none => rw [renameWrites, ih _ hprest]
      | some path =>
          have hne : p ≠ path := fun h => hp (by rw [h]; exact List.mem_cons_self _ _)
          rw [renameWrites]
          by_cases hq : (vaultGet path vault).isSome
          · rw [if_pos hq, ih _ hprest, vaultGet_processFrontMatter_ne _ _ _ _ hne]
          · rw [if_neg hq, ih _ hprest]

/-- Every resolvable file named by an entry ends with the group-by property
set to the new name after `renameWrites`. -/
theorem renameWrites_mem (gp newName : String) (entries : List (Option String))
    (vault : Vault) (p : String) (hp : (some p) ∈ entries)
    (hres : (vaultGet p vault).isSome = true) :
    (vaultGet p (renameWrites gp newName entries vault)).bind (fmGet gp) =
      some (Value.str newName) := by
  induction entries generalizing vault with
  | nil => exact absurd hp (List.not_mem_nil _)
  | cons e rest ih =>
      by_cases hpe : e = some p
      · subst hpe
        rw [renameWrites, if_pos hres]
        by_cases hprest : (some p) ∈ rest
        · exact ih _ hprest (by rw [vaultGet_processFrontMatter_isSome]; exact hres)
        · rw [renameWrites_not_mem _ _ _ _ _ hprest, vaultGet_processFrontMatter_self]
          obtain ⟨fm0, hfm0⟩ := Option.isSome_iff_exists.mp hres
          rw [hfm0]
          simp [fmGet_fmSet_self]
      · have hprest : (some p) ∈ rest := by
          cases List.mem_cons.mp hp with
          | inl h => exact absurd h.symm hpe
          | inr h => exact h
        cases e with
        | none => rw [renameWrites]; exact ih _ hprest hres
        | some path =>
            have hne : p ≠ path := fun h => hpe (by rw [h])
            rw [renameWrites]
            by_cases hq : (vaultGet path vault).isSome
            · rw [if_pos hq]
              exact ih _ hprest (by
                rw [vaultGet_processFrontMatter_isSome]; exact hres)
            · rw [if_neg hq]; exact ih _ hprest hres

/-- The merge loop of `getColumns` preserves freedom from duplicates. -/
theorem mergeColumns_nodup (cols : List String) (stored : List String)
    (h : stored.Nodup) : (mergeColumns stored cols).Nodup := by
  induction cols generalizing stored with
  | nil => exact h
  | cons c rest ih =>
      rw [mergeColumns, List.foldl_cons]
      by_cases hc : c ∈ stored
      · rw [if_pos hc]; exact ih stored h
      · rw [if_neg hc]
        refine ih _ (List.nodup_append.mpr ⟨h, List.nodup_singleton c, ?_⟩)
        intro x hx hx'
        rw [List.mem_singleton] at hx'
        exact hc (hx' ▸ hx)

/-- Stored columns survive the merge loop of `getColumns`. -/
theorem mem_mergeColumns_of_mem_left (cols : List String) (stored : List String)
    (c : String) (hc : c ∈ stored) : c ∈ mergeColumns stored cols := by
  induction cols generalizing stored with
  | nil => exact hc
  | cons d rest ih =>
      rw [mergeColumns, List.foldl_cons]
      by_cases hd : d ∈ stored
      · rw [if_pos hd]; exact ih stored hc
      · rw [if_neg hd]; exact ih _ (List.mem_append_left _ hc)

/-- Every data column ends up in the merged list. -/
theorem mem_mergeColumns_of_mem_right (cols : List String) (stored : List String)
    (c : String) (hc : c ∈ cols) : c ∈ mergeColumns stored cols := by
  induction cols generalizing stored with
  | nil => exact absurd hc (List.not_mem_nil c)
  | cons d rest ih =>
      rw [mergeColumns, List.foldl_cons]
      cases List.mem_cons.mp hc with
      | inl h =>
          subst h
          by_cases hd : c ∈ stored
          · rw [if_pos hd]; exact mem_mergeColumns_of_mem_left rest stored c hd
          · rw [if_neg hd]
            exact mem_mergeColumns_of_mem_left rest _ c
              (List.mem_append_right _ (List.mem_singleton_self c))
      | inr h =>
          by_cases hd : d ∈ stored
          · rw [if_pos hd]; exact ih _ h
          · rw [if_neg hd]; exact ih _ h

/-- The duplicate-name branch of `handleRenameColumn` only shows a notice. -/
theorem handleRenameColumn_collision (oldName newName : String)
    (entries : List (Option String)) (st : ViewState) (h : newName ∈ getColumns st) :
    handleRenameColumn oldName newName entries st =
      { st with notices := st.notices ++ [columnExistsNotice newName] } := by
  rw [handleRenameColumn]
  simp only [if_pos h]

/-- Mapping `oldName ↦ newName` over a duplicate-free list keeps it
duplicate-free when `newName` is fresh. -/
theorem replace_map_nodup (cols : List String) (oldName newName : String)
    (hnd : cols.Nodup) (hnew : newName ∉ cols) :
    (cols.map (fun c => if c = oldName then newName else c)).Nodup := by
  induction cols with
  | nil => exact List.nodup_nil
  | cons d rest ih =>
      rcases List.nodup_cons.mp hnd with ⟨hdr, hndr⟩
      have hnewr : newName ∉ rest := fun h => hnew (List.mem_cons_of_mem d h)
      have hnewd : newName ≠ d := fun h => hnew (h ▸ List.mem_cons_self d rest)
      rw [List.map_cons]
      refine List.nodup_cons.mpr ⟨?_, ih hndr hnewr⟩
      intro hmem
      obtain ⟨c, hc, hceq⟩ := List.mem_map.mp hmem
      by_cases hd : d = oldName
      · rw [if_pos hd] at hceq
        by_cases hcold : c = oldName
        · exact hdr ((hd.trans hcold.symm) ▸ hc)
        · rw [if_neg hcold] at hceq
          exact hnewr (hceq ▸ hc)
      · rw [if_neg hd] at hceq
        by_cases hcold : c = oldName
        · rw [if_pos hcold] at hceq
          exact hnewd hceq
        · rw [if_neg hcold] at hceq
          exact hdr (hceq ▸ hc)

/-- Saving a duplicate-free column list keeps the board's column list
duplicate-free, as long as the data-derived column names are themselves
duplicate-free. -/
theorem getColumns_set_stored_nodup (st : ViewState) (cols' : List String)
    (hdata : (dataColumns st).Nodup) (h : cols'.Nodup) :
    (getColumns { st with storedColumns := some cols' }).Nodup := by
  have hdata' : dataColumns { st with storedColumns := some cols' } = dataColumns st := rfl
  rw [getColumns]
  by_cases hl : cols'.length > 0
  · simp only [hl, if_pos, hdata']
    exact mergeColumns_nodup _ _ h
  · simp only [hl, if_neg, hdata']
    exact hdata

/-- C3: renaming a column `oldName` to a non-empty fresh `newName` stores the
board's column list with `oldName` positionally replaced by `newName`, and
sets the group-by frontmatter property of every member entry that resolves
to a file to `newName`. -/
theorem handleRenameColumn_updates_columns_and_members
    (oldName newName : String) (entries : List (Option String)) (st : ViewState)
    (gp : String) (hne : newName ≠ "") (hdiff : newName ≠ oldName)
    (hnew : newName ∉ getColumns st) (hgp : st.groupByProp = some gp) :
    (handleRenameColumn oldName newName entries st).storedColumns =
      some ((getColumns st).map (fun c => if c = oldName then newName else c)) ∧
    ∀ p, (some p) ∈ entries → (vaultGet p st.vault).isSome = true →
      ∃ fm, vaultGet p (handleRenameColumn oldName newName entries st).vault = some fm ∧
        fmGet gp fm = some (Value.str newName) := by
  constructor
  · rw [handleRenameColumn]
    simp [if_neg hnew, hgp]
  · intro p hp hres
    have hvault : (handleRenameColumn oldName newName entries st).vault =
        renameWrites gp newName entries st.vault := by
      rw [handleRenameColumn]
      simp [if_neg hnew, hgp]
    rw [hvault]
    have hsome : (vaultGet p (renameWrites gp newName entries st.vault)).isSome = true := by
      rw [renameWrites_isSome]; exact hres
    obtain ⟨fm, hfm⟩ := Option.isSome_iff_exists.mp hsome
    refine ⟨fm, hfm, ?_⟩
    have := renameWrites_mem gp newName entries st.vault p hp hres
    rw [hfm] at this
    simpa using this

/-- A concrete board for the rename witness: stored columns
`["Todo", "Done"]`, one card `a.md` in `Todo`. -/
def sampleRenameState : ViewState where
  vault := [("a.md", [("status", Value.str "Todo")])]
  currentGroups := [⟨BaseKey.prim (Prim.pstr "Todo"), [some "a.md"]⟩]
  groupByProp := some "status"
  storedColumns := some ["Todo", "Done"]
  notices := []
  renameAttempts := []
  rendersScheduled := 0
  isUpdating := false
  pendingRender := false

/-- Witness for C3: renaming `Todo` to `WIP` on `sampleRenameState`. -/
theorem handleRenameColumn_updates_columns_and_members_witness :
    (("WIP" : String) ≠ "" ∧ ("WIP" : String) ≠ "Todo" ∧
      "WIP" ∉ getColumns sampleRenameState ∧
      sampleRenameState.groupByProp = some "status") ∧
    (handleRenameColumn "Todo" "WIP" [some "a.md"] sampleRenameState).storedColumns =
      some ((getColumns sampleRenameState).map (fun c => if c = "Todo" then "WIP" else c)) ∧
    ∀ p, (some p) ∈ ([some "a.md"] : List (Option String)) →
      (vaultGet p sampleRenameState.vault).isSome = true →
      ∃ fm, vaultGet p (handleRenameColumn "Todo" "WIP" [some "a.md"]
          sampleRenameState).vault = some fm ∧
        fmGet "status" fm = some (Value.str "WIP") :=
  ⟨⟨by decide, by decide, by decide, rfl⟩,
   handleRenameColumn_updates_columns_and_members "Todo" "WIP" [some "a.md"]
     sampleRenameState "status" (by decide) (by decide) (by decide) rfl⟩

/-- C5: adding a column with an existing name, or renaming a column to an
existing name, appends a notice and leaves the stored column list (and the
vault) unchanged; and — provided the board's column names are unique
beforehand (in particular, distinct groups carry distinct names) — every
add, rename and delete operation leaves the board's column list free of
duplicates. -/
theorem column_names_unique_and_duplicates_rejected (st : ViewState)
    (hdata : (dataColumns st).Nodup) (hnd : (getColumns st).Nodup) :
    (∀ name, name ∈ getColumns st →
      (addColumn name st).storedColumns = st.storedColumns ∧
      (addColumn name st).vault = st.vault ∧
      (addColumn name st).notices = st.notices ++ [columnExistsNotice name]) ∧
    (∀ oldName newName entries, newName ∈ getColumns st →
      (handleRenameColumn oldName newName entries st).storedColumns = st.storedColumns ∧
      (handleRenameColumn oldName newName entries st).vault = st.vault ∧
      (handleRenameColumn oldName newName entries st).notices =
        st.notices ++ [columnExistsNotice newName]) ∧
    (∀ name, (getColumns (addColumn name st)).Nodup) ∧
    (∀ oldName newName entries,
      (getColumns (handleRenameColumn oldName newName entries st)).Nodup) ∧
    (∀ name, (getColumns (handleDeleteColumn name st)).Nodup) := by
  refine ⟨?_, ?_, ?_, ?_, ?_⟩
  · intro name hmem
    rw [addColumn]
    simp only [if_pos hmem]
    exact ⟨trivial, trivial, trivial⟩
  · intro oldName newName entries hmem
    rw [handleRenameColumn_collision oldName newName entries st hmem]
    exact ⟨rfl, rfl, rfl⟩
  · intro name
    rw [addColumn]
    by_cases hmem : name ∈ getColumns st
    · simp only [if_pos hmem]
      exact hnd
    · simp only [if_neg hmem]
      refine getColumns_set_stored_nodup st _ hdata ?_
      refine List.nodup_append.mpr ⟨hnd, List.nodup_singleton name, ?_⟩
      intro x hx hx'
      rw [List.mem_singleton] at hx'
      exact hmem (hx' ▸ hx)
  · intro oldName newName entries
    by_cases hmem : newName ∈ getColumns st
    · rw [handleRenameColumn_collision oldName newName entries st hmem]
      exact hnd
    · have hstored : (handleRenameColumn oldName newName entries st).storedColumns =
          some ((getColumns st).map (fun c => if c = oldName then newName else c)) := by
        rw [handleRenameColumn]
        simp only [if_neg hmem]
        cases hgp : st.groupByProp <;> simp
      have hgroups : (handleRenameColumn oldName newName entries st).currentGroups =
          st.currentGroups := by
        rw [handleRenameColumn]
        simp only [if_neg hmem]
        cases hgp : st.groupByProp <;> simp
      have hmap : (getColumns st).map (fun c => if c = oldName then newName else c)
          |>.Nodup := replace_map_nodup _ _ _ hnd hmem
      have hdata' : dataColumns (handleRenameColumn oldName newName entries st) =
          dataColumns st := by
        unfold dataColumns
        rw [hgroups]
      rw [getColumns, hstored, hdata']
      by_cases hl : ((getColumns st).map (fun c => if c = oldName then newName else c)).length > 0
      · simp only [hl, if_pos]
        exact mergeColumns_nodup _ _ hmap
      · simp only [hl, if_neg]
        exact hdata
  · intro name
    refine getColumns_set_stored_nodup st _ hdata ?_
    exact List.Nodup.filter _ hnd

/-- Witness for C5 on `sampleRenameState` (duplicate add and rename of
`Done`, plus all three duplicate-freedom conclusions). -/
theorem column_names_unique_and_duplicates_rejected_witness :
    ((dataColumns sampleRenameState).Nodup ∧ (getColumns sampleRenameState).Nodup) ∧
    (∀ name, name ∈ getColumns sampleRenameState →
      (addColumn name sampleRenameState).storedColumns = sampleRenameState.storedColumns ∧
      (addColumn name sampleRenameState).vault = sampleRenameState.vault ∧
      (addColumn name sampleRenameState).notices =
        sampleRenameState.notices ++ [columnExistsNotice name]) ∧
    (∀ oldName newName entries, newName ∈ getColumns sampleRenameState →
      (handleRenameColumn oldName newName entries sampleRenameState).storedColumns =
        sampleRenameState.storedColumns ∧
      (handleRenameColumn oldName newName entries sampleRenameState).vault =
        sampleRenameState.vault ∧
      (handleRenameColumn oldName newName entries sampleRenameState).notices =
        sampleRenameState.notices ++ [columnExistsNotice newName]) ∧
    (∀ name, (getColumns (addColumn name sampleRenameState)).Nodup) ∧
    (∀ oldName newName entries,
      (getColumns (handleRenameColumn oldName newName entries sampleRenameState)).Nodup) ∧
    (∀ name, (getColumns (handleDeleteColumn name sampleRenameState)).Nodup) :=
  ⟨⟨by decide, by decide⟩,
   column_names_unique_and_duplicates_rejected sampleRenameState (by decide) (by decide)⟩

/-- The new path computed in `CardManager.startCardRename`:
`file.path.replace(/[^\/]+\.md$/, replacement)`, i.e. the final path segment
is replaced when it is a non-empty `.md` filename, and the path is left
unchanged otherwise. -/
def renameTargetPath (path replacement : String) : String :=
  let parts := path.splitOn "/"
  match parts.getLast? with
  | some last =>
      if last.endsWith ".md" = true ∧ 3 < last.length then
        String.intercalate "/" (parts.dropLast ++ [replacement])
      else path
  | none => path

/-- The `commit` closure of `CardManager.startCardRename` (`CardManager`):
with a non-empty name different from the current basename it computes the
new path from the sanitized name and calls the host's
`fileManager.renameFile` exactly once; when that call throws, the error is
surfaced as a `Rename failed: …` notice and nothing else changes.  The host
call is modelled by `hostRename`, returning the updated vault or the thrown
error; `renameAttempts` records each call made.  A render is scheduled at
the end in every case. -/
def commitCardRename (path basename newName : String)
    (hostRename : String → String → Except String Vault) (st : ViewState) : ViewState :=
  if newName ≠ "" ∧ newName ≠ basename then
    let newPath := renameTargetPath path (sanitizeFilename newName ++ ".md")
    match hostRename path newPath with
    | .ok vault' =>
        { st with vault := vault',
                  renameAttempts := st.renameAttempts ++ [(path, newPath)],
                  rendersScheduled := st.rendersScheduled + 1 }
    | .error err =>
        { st with notices := st.notices ++ ["Rename failed: " ++ err],
                  renameAttempts := st.renameAttempts ++ [(path, newPath)],
                  rendersScheduled := st.rendersScheduled + 1 }
  else
    { st with rendersScheduled := st.rendersScheduled + 1 }

/-- C8: when the host's `renameFile` throws during a card rename, a notice
carrying the error is shown, exactly one rename was attempted (no retry),
and no other state changes — vault, stored columns and notices are otherwise
untouched; likewise a column-name collision during a column rename yields a
notice and no state change. -/
theorem failures_are_notices_no_retry (path basename newName err : String)
    (hostRename : String → String → Except String Vault) (st : ViewState)
    (hname : newName ≠ "" ∧ newName ≠ basename)
    (herr : hostRename path (renameTargetPath path (sanitizeFilename newName ++ ".md"))
      = .error err) :
    ((commitCardRename path basename newName hostRename st).notices =
        st.notices ++ ["Rename failed: " ++ err] ∧
      (commitCardRename path basename newName hostRename st).renameAttempts =
        st.renameAttempts ++
          [(path, renameTargetPath path (sanitizeFilename newName ++ ".md"))] ∧
      (commitCardRename path basename newName hostRename st).vault = st.vault ∧
      (commitCardRename path basename newName hostRename st).storedColumns =
        st.storedColumns) ∧
    ∀ oldName newName' entries, newName' ∈ getColumns st →
      (handleRenameColumn oldName newName' entries st).storedColumns = st.storedColumns ∧
      (handleRenameColumn oldName newName' entries st).vault = st.vault ∧
      (handleRenameColumn oldName newName' entries st).notices =
        st.notices ++ [columnExistsNotice newName'] := by
  constructor
  · rw [commitCardRename]
    simp only [if_pos hname, herr]
    exact ⟨trivial, trivial, trivial, trivial⟩
  · intro oldName newName' entries hmem
    rw [handleRenameColumn_collision oldName newName' entries st hmem]
    exact ⟨rfl, rfl, rfl⟩

/-- A host rename that always fails with `boom`. -/
def failingHostRename : String → String → Except String Vault :=
  fun _ _ => .error "boom"

/-- Witness for C8: renaming `a.md` to `b` under a throwing host, and
renaming column `Todo` to the existing `Done` on `sampleRenameState`. -/
theorem failures_are_notices_no_retry_witness :
    ((("b" : String) ≠ "" ∧ ("b" : String) ≠ "a") ∧
      failingHostRename "a.md" (renameTargetPath "a.md" (sanitizeFilename "b" ++ ".md"))
        = .error "boom") ∧
    ((commitCardRename "a.md" "a" "b" failingHostRename sampleRenameState).notices =
        sampleRenameState.notices ++ ["Rename failed: " ++ "boom"] ∧
      (commitCardRename "a.md" "a" "b" failingHostRename sampleRenameState).renameAttempts =
        sampleRenameState.renameAttempts ++
          [("a.md", renameTargetPath "a.md" (sanitizeFilename "b" ++ ".md"))] ∧
      (commitCardRename "a.md" "a" "b" failingHostRename sampleRenameState).vault =
        sampleRenameState.vault ∧
      (commitCardRename "a.md" "a" "b" failingHostRename sampleRenameState).storedColumns =
        sampleRenameState.storedColumns) ∧
    ∀ oldName newName' entries, newName' ∈ getColumns sampleRenameState →
      (handleRenameColumn oldName newName' entries sampleRenameState).storedColumns =
        sampleRenameState.storedColumns ∧
      (handleRenameColumn oldName newName' entries sampleRenameState).vault =
        sampleRenameState.vault ∧
      (handleRenameColumn oldName newName' entries sampleRenameState).notices =
        sampleRenameState.notices ++ [columnExistsNotice newName'] :=
  ⟨⟨⟨by decide, by decide⟩, rfl⟩,
   failures_are_notices_no_retry "a.md" "a" "b" "boom" failingHostRename
     sampleRenameState ⟨by decide, by decide⟩ rfl⟩

/-- The render-suppression flags of a `KanbanView` together with a count of
renders scheduled so far. -/
structure RenderFlags where
  isUpdating : Bool
  pendingRender : Bool
  rendersScheduled : Nat
  deriving DecidableEq, Repr

/-- `KanbanView.onDataUpdated`: while a batch update is in flight the
notification only sets `pendingRender`; otherwise it schedules a
(debounced) render. -/
def onDataUpdated (fl : RenderFlags) : RenderFlags :=
  if fl.isUpdating then { fl with pendingRender := true }
  else { fl with rendersScheduled := fl.rendersScheduled + 1 }

/-- Entry into a batch update (`handleCardDrop` / `handleRenameColumn`):
`isUpdating := true; pendingRender := false`. -/
def batchBegin (fl : RenderFlags) : RenderFlags :=
  { fl with isUpdating := true, pendingRender := false }

/-- Exit from a batch update: the `finally` clears `isUpdating`, then a
render is scheduled iff `pendingRender` was set during the batch. -/
def batchEnd (fl : RenderFlags) : RenderFlags :=
  let fl := { fl with isUpdating := false }
  if fl.pendingRender then
    { fl with pendingRender := false, rendersScheduled := fl.rendersScheduled + 1 }
  else fl

/-- An event interleaved with the batch body at its `await` points: either a
`Bases` data-update notification or one of the batch's own frontmatter
writes (which does not touch the flags). -/
inductive BatchEvent where
  | notify
  | write
  deriving DecidableEq, Repr

/-- One interleaving step during a batch. -/
def stepEvent (fl : RenderFlags) : BatchEvent → RenderFlags
  | .notify => onDataUpdated fl
  | .write => fl

/-- A whole batch execution: enter, process the interleaved events, exit. -/
def runBatch (fl : RenderFlags) (evs : List BatchEvent) : RenderFlags :=
  batchEnd (evs.foldl stepEvent (batchBegin fl))

/-- Invariant of the batch body: while `isUpdating` holds, events keep it
set, never schedule a render, and set `pendingRender` exactly when a
notification arrives. -/
theorem foldl_stepEvent_invariant (evs : List BatchEvent) (fl : RenderFlags)
    (h : fl.isUpdating = true) :
    (evs.foldl stepEvent fl).isUpdating = true ∧
    (evs.foldl stepEvent fl).rendersScheduled = fl.rendersScheduled ∧
    ((evs.foldl stepEvent fl).pendingRender = true ↔
      (fl.pendingRender = true ∨ BatchEvent.notify ∈ evs)) := by
  induction evs generalizing fl with
  | nil => exact ⟨h, rfl, by simp⟩
  | cons e rest ih =>
      cases e with
      | notify =>
          rw [List.foldl_cons]
          have hstep : stepEvent fl BatchEvent.notify = { fl with pendingRender := true } := by
            simp [stepEvent, onDataUpdated, h]
          rw [hstep]
          obtain ⟨h1, h2, h3⟩ := ih { fl with pendingRender := true } h
          refine ⟨h1, h2, ?_⟩
          rw [h3]
          simp
      | write =>
          rw [List.foldl_cons]
          have hstep : stepEvent fl BatchEvent.write = fl := rfl
          rw [hstep]
          obtain ⟨h1, h2, h3⟩ := ih fl h
          refine ⟨h1, h2, ?_⟩
          rw [h3]
          simp

/-- C6: during a batch update the busy flag stays set for the whole
duration (every leading segment of the interleaved events leaves
`isUpdating = true`), a data-update notification arriving during the batch
never schedules a render and only sets `pendingRender`, and after the batch
a render is scheduled exactly when a notification arrived during it. -/
theorem batch_suppresses_renders (fl : RenderFlags) (evs : List BatchEvent) :
    (∀ pre suf : List BatchEvent, evs = pre ++ suf →
      (pre.foldl stepEvent (batchBegin fl)).isUpdating = true) ∧
    (evs.foldl stepEvent (batchBegin fl)).rendersScheduled = fl.rendersScheduled ∧
    ((evs.foldl stepEvent (batchBegin fl)).pendingRender = true ↔
      BatchEvent.notify ∈ evs) ∧
    (runBatch fl evs).rendersScheduled =
      fl.rendersScheduled + (if BatchEvent.notify ∈ evs then 1 else 0) ∧
    (runBatch fl evs).pendingRender = false := by
  have hbegin : (batchBegin fl).isUpdating = true := rfl
  obtain ⟨h1, h2, h3⟩ := foldl_stepEvent_invariant evs (batchBegin fl) hbegin
  have h3' : (evs.foldl stepEvent (batchBegin fl)).pendingRender = true ↔
      BatchEvent.notify ∈ evs := by
    rw [h3]
    simp [batchBegin]
  refine ⟨?_, h2, h3', ?_, ?_⟩
  · intro pre suf hsplit
    exact (foldl_stepEvent_invariant pre (batchBegin fl) hbegin).1
  · rw [runBatch, batchEnd]
    by_cases hn : BatchEvent.notify ∈ evs
    · have : (evs.foldl stepEvent (batchBegin fl)).pendingRender = true := h3'.mpr hn
      simp only [this, if_pos, hn, if_true]
      rw [h2]
      rfl
    · have : (evs.foldl stepEvent (batchBegin fl)).pendingRender = false := by
        cases hp : (evs.foldl stepEvent (batchBegin fl)).pendingRender
        · rfl
        · exact absurd (h3'.mp hp) hn
      simp only [this, hn, if_false, Bool.false_eq_true, ite_false]
      rw [h2]
      rfl
  · rw [runBatch, batchEnd]
    by_cases hp : (evs.foldl stepEvent (batchBegin fl)).pendingRender = true
    · simp [hp]
    · simp only [Bool.not_eq_true] at hp
      simp [hp]

/-- Witness for C6: a batch with a write, a notification and another write
(the split-quantifier part is exercised by the theorem application itself). -/
theorem batch_suppresses_renders_witness :
    (∀ pre suf : List BatchEvent,
      ([BatchEvent.write, BatchEvent.notify, BatchEvent.write] : List BatchEvent)
          = pre ++ suf →
      (pre.foldl stepEvent (batchBegin ⟨false, false, 0⟩)).isUpdating = true) ∧
    (([BatchEvent.write, BatchEvent.notify, BatchEvent.write] : List BatchEvent).foldl
        stepEvent (batchBegin ⟨false, false, 0⟩)).rendersScheduled = 0 ∧
    ((([BatchEvent.write, BatchEvent.notify, BatchEvent.write] : List BatchEvent).foldl
        stepEvent (batchBegin ⟨false, false, 0⟩)).pendingRender = true ↔
      BatchEvent.notify ∈
        ([BatchEvent.write, BatchEvent.notify, BatchEvent.write] : List BatchEvent)) ∧
    (runBatch ⟨false, false, 0⟩
        [BatchEvent.write, BatchEvent.notify, BatchEvent.write]).rendersScheduled =
      0 + (if BatchEvent.notify ∈
        ([BatchEvent.write, BatchEvent.notify, BatchEvent.write] : List BatchEvent)
          then 1 else 0) ∧
    (runBatch ⟨false, false, 0⟩
        [BatchEvent.write, BatchEvent.notify, BatchEvent.write]).pendingRender = false :=
  batch_suppresses_renders ⟨false, false, 0⟩
    [BatchEvent.write, BatchEvent.notify, BatchEvent.write]

/-- A `getBoundingClientRect` result (only the fields `getDragAfterElement`
reads). -/
structure DomRect where
  top : ℚ
  left : ℚ
  width : ℚ
  height : ℚ
  deriving DecidableEq, Repr

/-- An element of the queried container: whether it matches the selector
passed to `querySelectorAll`, and its bounding rect. -/
structure DomElement where
  matchesSelector : Bool
  rect : DomRect
  deriving DecidableEq, Repr

/-- The axis argument of `getDragAfterElement`. -/
inductive Axis where
  | vertical
  | horizontal
  deriving DecidableEq, Repr

/-- The `offset` computed per child in `getDragAfterElement`:
`cursorPos - box.top - box.height / 2` (vertical) or
`cursorPos - box.left - box.width / 2` (horizontal). -/
def elementOffset (axis : Axis) (cursorPos : ℚ) (e : DomElement) : ℚ :=
  match axis with
  | .vertical => cursorPos - e.rect.top - e.rect.height / 2
  | .horizontal => cursorPos - e.rect.left - e.rect.width / 2

/-- The midpoint of an element along the axis. -/
def midpoint (axis : Axis) (e : DomElement) : ℚ :=
  match axis with
  | .vertical => e.rect.top + e.rect.height / 2
  | .horizontal => e.rect.left + e.rect.width / 2

theorem elementOffset_eq (axis : Axis) (cursorPos : ℚ) (e : DomElement) :
    elementOffset axis cursorPos e = cursorPos - midpoint axis e := by
  cases axis <;> (rw [elementOffset, midpoint]; ring)

/-- One iteration of the accumulator loop of `getDragAfterElement`:
`closest` / `closestOffset` start as `null` / `-Infinity` (modelled as
`none`), and a child replaces them when its offset is negative and greater
than the best so far. -/
def dragAfterStep (axis : Axis) (cursorPos : ℚ) (child : DomElement)
    (acc : Option (DomElement × ℚ)) : Option (DomElement × ℚ) :=
  let offset := elementOffset axis cursorPos child
  match acc with
  | none => if offset < 0 then some (child, offset) else none
  | some (b, bo) => if offset < 0 ∧ offset > bo then some (child, offset) else some (b, bo)

/-- The `for` loop of `getDragAfterElement`. -/
def dragAfterLoop (axis : Axis) (cursorPos : ℚ) :
    List DomElement → Option (DomElement × ℚ) → Option (DomElement × ℚ)
  | [], acc => acc
  | child :: rest, acc =>
      dragAfterLoop axis cursorPos rest (dragAfterStep axis cursorPos child acc)

/-- `DragDropManager.getDragAfterElement` (`src/drag-drop.ts`): run the loop
over the children matching the selector and return the winning element. -/
def getDragAfterElement (els : List DomElement) (cursorPos : ℚ) (axis : Axis) :
    Option DomElement :=
  (dragAfterLoop axis cursorPos (els.filter (fun e => e.matchesSelector)) none).map Prod.fst

/-- The loop invariant: a `some` accumulator always stores a negative offset
together with its element. -/
def AccInv (axis : Axis) (cursorPos : ℚ) (acc : Option (DomElement × ℚ)) : Prop :=
  ∀ b bo, acc = some (b, bo) → bo = elementOffset axis cursorPos b ∧ bo < 0

theorem accInv_step (axis : Axis) (cursorPos : ℚ) (child : DomElement)
    (acc : Option (DomElement × ℚ)) (h : AccInv axis cursorPos acc) :
    AccInv axis cursorPos (dragAfterStep axis cursorPos child acc) := by
  intro b bo heq
  cases acc with
  | none =>
      rw [dragAfterStep] at heq
      by_cases hneg : elementOffset axis cursorPos child < 0
      · simp only [if_pos hneg] at heq
        obtain ⟨hb, hbo⟩ := Prod.mk.injEq _ _ _ _ ▸ (Option.some.inj heq)
        exact ⟨by rw [← hb, ← hbo], by rw [← hbo]; exact hneg⟩
      · simp only [if_neg hneg] at heq
        exact absurd heq (by simp)
  | some pair =>
      obtain ⟨b0, bo0⟩ := pair
      rw [dragAfterStep] at heq
      by_cases hupd : elementOffset axis cursorPos child < 0 ∧
          elementOffset axis cursorPos child > bo0
      · simp only [if_pos hupd] at heq
        obtain ⟨hb, hbo⟩ := Prod.mk.injEq _ _ _ _ ▸ (Option.some.inj heq)
        exact ⟨by rw [← hb, ← hbo], by rw [← hbo]; exact hupd.1⟩
      · simp only [if_neg hupd] at heq
        obtain ⟨hb, hbo⟩ := Prod.mk.injEq _ _ _ _ ▸ (Option.some.inj heq)
        exact h b bo (by rw [← hb, ← hbo])

/-- After one step, the stored offset is at least the old one, and at least
the child's offset when that offset is negative. -/
theorem dragAfterStep_mono (axis : Axis) (cursorPos : ℚ) (child : DomElement)
    (acc : Option (DomElement × ℚ)) :
    (∀ b bo, dragAfterStep axis cursorPos child acc = some (b, bo) →
      (b = child ∨ acc = some (b, bo)) ∧
      (∀ a ao, acc = some (a, ao) → ao ≤ bo) ∧
      (elementOffset axis cursorPos child < 0 → elementOffset axis cursorPos child ≤ bo)) ∧
    (dragAfterStep axis cursorPos child acc = none → acc = none ∧
      ¬ elementOffset axis cursorPos child < 0) := by
  cases acc with
  | none =>
      by_cases hneg : elementOffset axis cursorPos child < 0
      · constructor
        · intro b bo heq
          rw [dragAfterStep] at heq
          simp only [if_pos hneg] at heq
          obtain ⟨hb, hbo⟩ := Prod.mk.injEq _ _ _ _ ▸ (Option.some.inj heq)
          refine ⟨Or.inl hb.symm, by simp, fun _ => le_of_eq hbo⟩
        · intro heq
          rw [dragAfterStep] at heq
          simp only [if_pos hneg] at heq
          exact absurd heq (by simp)
      · constructor
        · intro b bo heq
          rw [dragAfterStep] at heq
          simp only [if_neg hneg] at heq
          exact absurd heq (by simp)
        · intro _
          exact ⟨rfl, hneg⟩
  | some pair =>
      obtain ⟨b0, bo0⟩ := pair
      by_cases hupd : elementOffset axis cursorPos child < 0 ∧
          elementOffset axis cursorPos child > bo0
      · constructor
        · intro b bo heq
          rw [dragAfterStep] at heq
          simp only [if_pos hupd] at heq
          obtain ⟨hb, hbo⟩ := Prod.mk.injEq _ _ _ _ ▸ (Option.some.inj heq)
          refine ⟨Or.inl hb.symm, ?_, fun _ => le_of_eq hbo⟩
          intro a ao ha
          obtain ⟨_, hao⟩ := Prod.mk.injEq _ _ _ _ ▸ (Option.some.inj ha)
          rw [← hao, ← hbo]
          exact hupd.2.le
        · intro heq
          rw [dragAfterStep] at heq
          simp only [if_pos hupd] at heq
          exact absurd heq (by simp)
      · constructor
        · intro b bo heq
          rw [dragAfterStep] at heq
          simp only [if_neg hupd] at heq
          refine ⟨Or.inr heq, ?_, ?_⟩
          · intro a ao ha
            obtain ⟨_, hao⟩ := Prod.mk.injEq _ _ _ _ ▸ (Option.some.inj ha)
            obtain ⟨_, hbo⟩ := Prod.mk.injEq _ _ _ _ ▸ (Option.some.inj heq)
            rw [← hao, ← hbo]
          · intro hneg
            obtain ⟨_, hbo⟩ := Prod.mk.injEq _ _ _ _ ▸ (Option.some.inj heq)
            have : ¬ elementOffset axis cursorPos child > bo0 := fun hgt => hupd ⟨hneg, hgt⟩
            rw [← hbo]
            exact not_lt.mp this
        · intro heq
          rw [dragAfterStep] at heq
          simp only [if_neg hupd] at heq
          exact absurd heq (by simp)

/-- Full characterization of the accumulator loop. -/
theorem dragAfterLoop_spec (axis : Axis) (cursorPos : ℚ) (l : List DomElement)
    (acc : Option (DomElement × ℚ)) (hacc : AccInv axis cursorPos acc) :
    (dragAfterLoop axis cursorPos l acc = none → acc = none ∧
      ∀ e ∈ l, ¬ elementOffset axis cursorPos e < 0) ∧
    (∀ b bo, dragAfterLoop axis cursorPos l acc = some (b, bo) →
      bo = elementOffset axis cursorPos b ∧ bo < 0 ∧
      (b ∈ l ∨ acc = some (b, bo)) ∧
      (∀ e ∈ l, elementOffset axis cursorPos e < 0 → elementOffset axis cursorPos e ≤ bo) ∧
      (∀ a ao, acc = some (a, ao) → ao ≤ bo)) := by
  induction l generalizing acc with
  | nil =>
      constructor
      · intro h
        exact ⟨h, by simp⟩
      · intro b bo h
        have hacceq : acc = some (b, bo) := h
        obtain ⟨h1, h2⟩ := hacc b bo hacceq
        refine ⟨h1, h2, Or.inr hacceq, by simp, ?_⟩
        intro a ao ha
        have hp : (a, ao) = (b, bo) := Option.some.inj (ha.symm.trans hacceq)
        exact le_of_eq ((Prod.mk.injEq _ _ _ _ ▸ hp).2)
  | cons child rest ih =>
      have hstep : dragAfterLoop axis cursorPos (child :: rest) acc =
          dragAfterLoop axis cursorPos rest (dragAfterStep axis cursorPos child acc) := rfl
      have hinv' := accInv_step axis cursorPos child acc hacc
      obtain ⟨ihnone, ihsome⟩ := ih (dragAfterStep axis cursorPos child acc) hinv'
      obtain ⟨hmono, hnone⟩ := dragAfterStep_mono axis cursorPos child acc
      rw [hstep]
      constructor
      · intro h
        obtain ⟨hstepnone, hrest⟩ := ihnone h
        obtain ⟨haccnone, hchildpos⟩ := hnone hstepnone
        refine ⟨haccnone, ?_⟩
        intro e he
        cases List.mem_cons.mp he with
        | inl hech => rw [hech]; exact hchildpos
        | inr herest => exact hrest e herest
      · intro b bo h
        obtain ⟨h1, h2, h3, h4, h5⟩ := ihsome b bo h
        constructor
        · exact h1
        constructor
        · exact h2
        constructor
        · cases h3 with
          | inl hmem => exact Or.inl (List.mem_cons_of_mem child hmem)
          | inr heq =>
              obtain ⟨hbc, _, _⟩ := hmono b bo heq
              cases hbc with
              | inl hb => exact Or.inl (hb ▸ List.mem_cons_self child rest)
              | inr haccsome => exact Or.inr haccsome
        constructor
        · intro e he hneg
          cases List.mem_cons.mp he with
          | inl hech =>
              subst hech
              by_cases hcase : dragAfterStep axis cursorPos e acc = some (b, bo)
              · obtain ⟨_, _, hoff⟩ := hmono b bo hcase
                exact hoff hneg
              · cases hds : dragAfterStep axis cursorPos e acc with
                | none =>
                    obtain ⟨_, habs⟩ := hnone hds
                    exact absurd hneg habs
                | some pair =>
                    obtain ⟨a0, ao0⟩ := pair
                    obtain ⟨_, _, hoff⟩ := hmono a0 ao0 hds
                    have hao0 : ao0 ≤ bo := h5 a0 ao0 hds
                    exact le_trans (hoff hneg) hao0
          | inr herest => exact h4 e herest hneg
        · intro a ao ha
          cases hds : dragAfterStep axis cursorPos child acc with
          | none =>
              obtain ⟨haccnone, _⟩ := hnone hds
              rw [haccnone] at ha
              exact absurd ha (by simp)
          | some pair =>
              obtain ⟨a0, ao0⟩ := pair
              obtain ⟨_, hup, _⟩ := hmono a0 ao0 hds
              have h1' : ao ≤ ao0 := hup a ao ha
              have h2' : ao0 ≤ bo := h5 a0 ao0 hds
              exact le_trans h1' h2'
/-- C4: `getDragAfterElement` returns `null` exactly when no matching
element has its midpoint strictly past the cursor position, and any element
returned is a matching one whose midpoint lies strictly past the cursor and
closest to it among all such elements. -/
theorem getDragAfterElement_nearest_midpoint (els : List DomElement) (cursorPos : ℚ)
    (axis : Axis) :
    (getDragAfterElement els cursorPos axis = none ↔
      ∀ e ∈ els, e.matchesSelector = true → ¬ cursorPos < midpoint axis e) ∧
    ∀ e, getDragAfterElement els cursorPos axis = some e →
      e ∈ els ∧ e.matchesSelector = true ∧ cursorPos < midpoint axis e ∧
      ∀ e' ∈ els, e'.matchesSelector = true → cursorPos < midpoint axis e' →
        midpoint axis e - cursorPos ≤ midpoint axis e' - cursorPos := by
  have hinv : AccInv axis cursorPos none := fun b bo h => Option.noConfusion h
  obtain ⟨hnone, hsome⟩ := dragAfterLoop_spec axis cursorPos
    (els.filter (fun e => e.matchesSelector)) none hinv
  have hofflt : ∀ e : DomElement,
      elementOffset axis cursorPos e < 0 ↔ cursorPos < midpoint axis e := by
    intro e
    rw [elementOffset_eq]
    constructor <;> intro h <;> linarith
  constructor
  · constructor
    · intro h
      rw [getDragAfterElement] at h
      have hln : dragAfterLoop axis cursorPos
          (els.filter (fun e => e.matchesSelector)) none = none :=
        Option.map_eq_none'.mp h
      obtain ⟨-, hall⟩ := hnone hln
      intro e he hm hlt
      exact hall e (List.mem_filter.mpr ⟨he, hm⟩) ((hofflt e).mpr hlt)
    · intro hall
      rw [getDragAfterElement]
      cases hl : dragAfterLoop axis cursorPos
          (els.filter (fun e => e.matchesSelector)) none with
      | none => rfl
      | some pair =>
          obtain ⟨b, bo⟩ := pair
          obtain ⟨h1, h2, h3, -, -⟩ := hsome b bo hl
          have hbf : b ∈ els.filter (fun e => e.matchesSelector) := by
            cases h3 with
            | inl h => exact h
            | inr h => exact absurd h (by simp)
          obtain ⟨hbe, hbm⟩ := List.mem_filter.mp hbf
          have hblt : cursorPos < midpoint axis b := (hofflt b).mp (h1 ▸ h2)
          exact absurd hblt (hall b hbe hbm)
  · intro e he
    rw [getDragAfterElement] at he
    obtain ⟨pair, hpair, hfst⟩ := Option.map_eq_some'.mp he
    obtain ⟨b, bo⟩ := pair
    have hbe' : b = e := hfst
    subst hbe'
    obtain ⟨h1, h2, h3, h4, -⟩ := hsome b bo hpair
    have hbf : b ∈ els.filter (fun e => e.matchesSelector) := by
      cases h3 with
      | inl h => exact h
      | inr h => exact absurd h (by simp)
    obtain ⟨hbe, hbm⟩ := List.mem_filter.mp hbf
    refine ⟨hbe, hbm, (hofflt b).mp (h1 ▸ h2), ?_⟩
    intro e' he' hm' hlt'
    have hoff' : elementOffset axis cursorPos e' < 0 := (hofflt e').mpr hlt'
    have hle := h4 e' (List.mem_filter.mpr ⟨he', hm'⟩) hoff'
    rw [h1] at hle
    rw [elementOffset_eq, elementOffset_eq] at hle
    linarith

/-- Two matching elements with vertical midpoints 5 and 25. -/
def sampleEls : List DomElement :=
  [⟨true, ⟨0, 0, 0, 10⟩⟩, ⟨true, ⟨20, 0, 0, 10⟩⟩]

/-- Witness for C4: cursor at 12 between the two sample elements. -/
theorem getDragAfterElement_nearest_midpoint_witness :
    (getDragAfterElement sampleEls 12 Axis.vertical = none ↔
      ∀ e ∈ sampleEls, e.matchesSelector = true → ¬ (12 : ℚ) < midpoint Axis.vertical e) ∧
    ∀ e, getDragAfterElement sampleEls 12 Axis.vertical = some e →
      e ∈ sampleEls ∧ e.matchesSelector = true ∧ (12 : ℚ) < midpoint Axis.vertical e ∧
      ∀ e' ∈ sampleEls, e'.matchesSelector = true → (12 : ℚ) < midpoint Axis.vertical e' →
        midpoint Axis.vertical e - 12 ≤ midpoint Axis.vertical e' - 12 :=
  getDragAfterElement_nearest_midpoint sampleEls 12 Axis.vertical

/-- The decimal digit characters of `n`, most significant first; the
reference value of `Nat.toDigits 10` (and hence of the JavaScript template
`${counter}` used to build candidate file names). -/
def decChars (n : Nat) : List Char :=
  if h : n / 10 = 0 then [Nat.digitChar (n % 10)]
  else decChars (n / 10) ++ [Nat.digitChar (n % 10)]
decreasing_by
  exact Nat.div_lt_self (Nat.pos_of_ne_zero (fun h0 => h (by rw [h0]))) (by omega)

theorem decChars_ne_nil (n : Nat) : decChars n ≠ [] := by
  rw [decChars]
  by_cases h0 : n / 10 = 0 <;> simp [h0]

theorem decChars_eq_zero (n : Nat) (h : n / 10 = 0) :
    decChars n = [Nat.digitChar (n % 10)] := by
  rw [decChars]
  simp [h]

theorem decChars_eq_pos (n : Nat) (h : n / 10 ≠ 0) :
    decChars n = decChars (n / 10) ++ [Nat.digitChar (n % 10)] := by
  rw [decChars]
  simp [h]

theorem toDigitsCore_eq (fuel : Nat) : ∀ (n : Nat) (ds : List Char), n < fuel →
    Nat.toDigitsCore 10 fuel n ds = decChars n ++ ds := by
  induction fuel with
  | zero => intro n ds h; omega
  | succ f ih =>
      intro n ds h
      rw [Nat.toDigitsCore]
      by_cases h0 : n / 10 = 0
      · simp only [h0, if_pos]
        rw [decChars_eq_zero n h0]
        simp
      · simp only [h0, if_neg]
        have hlt : n / 10 < f := by
          have h1 : n / 10 < n := Nat.div_lt_self (Nat.pos_of_ne_zero
            (fun hz => h0 (by rw [hz]))) (by omega)
          omega
        rw [ih (n / 10) _ hlt, decChars_eq_pos n h0]
        simp [List.append_assoc]

theorem digitChar_inj_lt10 (a b : Nat) (ha : a < 10) (hb : b < 10)
    (h : Nat.digitChar a = Nat.digitChar b) : a = b := by
  have key : ∀ x : Fin 10, ∀ y : Fin 10, Nat.digitChar x.val = Nat.digitChar y.val → x = y := by
    decide
  have := key ⟨a, ha⟩ ⟨b, hb⟩ h
  exact Fin.mk.injEq _ _ _ _ ▸ this

theorem decChars_injective : ∀ m n : Nat, decChars m = decChars n → m = n := by
  intro m
  induction m using Nat.strong_induction_on with
  | _ m ih =>
      intro n h
      by_cases hm : m / 10 = 0 <;> by_cases hn : n / 10 = 0
      · rw [decChars_eq_zero m hm, decChars_eq_zero n hn] at h
        have hd : Nat.digitChar (m % 10) = Nat.digitChar (n % 10) := by
          simpa using h
        have hmod := digitChar_inj_lt10 _ _ (Nat.mod_lt _ (by omega))
          (Nat.mod_lt _ (by omega)) hd
        have hm' : m < 10 := (Nat.div_eq_zero_iff (by omega)).mp hm
        have hn' : n < 10 := (Nat.div_eq_zero_iff (by omega)).mp hn
        rw [Nat.mod_eq_of_lt hm', Nat.mod_eq_of_lt hn'] at hmod
        exact hmod
      · rw [decChars_eq_zero m hm, decChars_eq_pos n hn] at h
        have hlen := congrArg List.length h
        simp only [List.length_append, List.length_singleton] at hlen
        have h0 : (decChars (n / 10)).length = 0 := by omega
        exact absurd (List.length_eq_zero.mp h0) (decChars_ne_nil (n / 10))
      · rw [decChars_eq_pos m hm, decChars_eq_zero n hn] at h
        have hlen := congrArg List.length h
        simp only [List.length_append, List.length_singleton] at hlen
        have h0 : (decChars (m / 10)).length = 0 := by omega
        exact absurd (List.length_eq_zero.mp h0) (decChars_ne_nil (m / 10))
      · rw [decChars_eq_pos m hm, decChars_eq_pos n hn] at h
        obtain ⟨hinit, hlast⟩ := List.append_inj' h (by simp)
        have hdiv : m / 10 = n / 10 :=
          ih (m / 10) (Nat.div_lt_self (Nat.pos_of_ne_zero
            (fun hz => hm (by rw [hz]))) (by omega)) (n / 10) hinit
        have hd : Nat.digitChar (m % 10) = Nat.digitChar (n % 10) := by
          simpa using hlast
        have hmod := digitChar_inj_lt10 _ _ (Nat.mod_lt _ (by omega))
          (Nat.mod_lt _ (by omega)) hd
        have h1 := Nat.div_add_mod m 10
        have h2 := Nat.div_add_mod n 10
        omega

theorem natRepr_data (n : Nat) : (Nat.repr n).data = decChars n := by
  have h1 : Nat.repr n = (Nat.toDigits 10 n).asString := rfl
  have h2 : (Nat.toDigits 10 n).asString.data = Nat.toDigits 10 n := rfl
  rw [h1, h2, Nat.toDigits, toDigitsCore_eq (n + 1) n [] (by omega)]
  simp

theorem natRepr_injective (m n : Nat) (h : Nat.repr m = Nat.repr n) : m = n :=
  decChars_injective m n (by rw [← natRepr_data, ← natRepr_data, h])

theorem natRepr_length_pos (n : Nat) : 0 < (Nat.repr n).length := by
  have h : (Nat.repr n).length = (Nat.repr n).data.length := rfl
  rw [h, natRepr_data]
  exact List.length_pos.mpr (decChars_ne_nil n)

/-- The sequence of candidate paths tried by `CardManager.createNewCard`:
first `folder/safeName.md`, then `folder/safeName 1.md`,
`folder/safeName 2.md`, … (JavaScript template literals, with `Nat.repr` for
the decimal counter). -/
def cardFilePath (folder safeName : String) : Nat → String
  | 0 => folder ++ "/" ++ safeName ++ ".md"
  | k + 1 => folder ++ "/" ++ safeName ++ " " ++ Nat.repr (k + 1) ++ ".md"

theorem cardFilePath_injective (folder safeName : String) :
    Function.Injective (cardFilePath folder safeName) := by
  have hdata : ∀ k, (cardFilePath folder safeName k).data =
      folder.data ++ ("/".data ++ (safeName.data ++
        (match k with
         | 0 => ".md".data
         | k + 1 => " ".data ++ ((Nat.repr (k + 1)).data ++ ".md".data)))) := by
    intro k
    cases k with
    | zero => simp [cardFilePath, String.data_append, List.append_assoc]
    | succ k' => simp [cardFilePath, String.data_append, List.append_assoc]
  intro j k h
  have hd := congrArg String.data h
  rw [hdata j, hdata k] at hd
  have hd2 := List.append_cancel_left (List.append_cancel_left
    (List.append_cancel_left hd))
  match j, k with
  | 0, 0 => rfl
  | 0, k' + 1 =>
      exfalso
      have hlen := congrArg List.length hd2
      have hrepr : 0 < (Nat.repr (k' + 1)).data.length :=
        natRepr_length_pos (k' + 1)
      simp only [List.length_append] at hlen
      have h3 : (".md" : String).data.length = 3 := rfl
      have h1 : (" " : String).data.length = 1 := rfl
      omega
  | j' + 1, 0 =>
      exfalso
      have hlen := congrArg List.length hd2
      have hrepr : 0 < (Nat.repr (j' + 1)).data.length :=
        natRepr_length_pos (j' + 1)
      simp only [List.length_append] at hlen
      have h3 : (".md" : String).data.length = 3 := rfl
      have h1 : (" " : String).data.length = 1 := rfl
      omega
  | j' + 1, k' + 1 =>
      have hd3 := List.append_cancel_left hd2
      have hd4 := List.append_cancel_right hd3
      have hrepr : Nat.repr (j' + 1) = Nat.repr (k' + 1) := by
        have hj : (Nat.repr (j' + 1)).data = decChars (j' + 1) := natRepr_data _
        have hk : (Nat.repr (k' + 1)).data = decChars (k' + 1) := natRepr_data _
        have := decChars_injective (j' + 1) (k' + 1) (by rw [← hj, ← hk, hd4])
        rw [this]
      have := natRepr_injective (j' + 1) (k' + 1) hrepr
      omega

/-- The paths occupied by existing vault files. -/
def vaultPaths (vault : Vault) : List String := vault.map Prod.fst

theorem mem_vaultPaths_of_isSome (vault : Vault) (p : String)
    (h : (vaultGet p vault).isSome = true) : p ∈ vaultPaths vault := by
  induction vault with
  | nil => exact absurd h (by rw [vaultGet]; simp)
  | cons e rest ih =>
      rw [vaultGet] at h
      by_cases he : e.1 = p
      · exact he ▸ List.mem_map_of_mem Prod.fst (List.mem_cons_self e rest)
      · rw [if_neg he] at h
        exact List.mem_cons_of_mem _ (ih h)

/-- Pigeonhole: among the first `vault.length + 1` candidate paths (pairwise
distinct), at least one is not occupied. -/
theorem exists_free_index (vault : Vault) (folder safeName : String) :
    ∃ k ≤ vault.length, (vaultGet (cardFilePath folder safeName k) vault).isSome = false := by
  by_contra hcon
  push_neg at hcon
  have hall : ∀ k ≤ vault.length,
      (vaultGet (cardFilePath folder safeName k) vault).isSome = true := by
    intro k hk
    have := hcon k hk
    cases hs : (vaultGet (cardFilePath folder safeName k) vault).isSome
    · exact absurd hs this
    · rfl
  have hsub : ((List.range (vault.length + 1)).map (cardFilePath folder safeName)) ⊆
      vaultPaths vault := by
    intro p hp
    obtain ⟨k, hk, hkp⟩ := List.mem_map.mp hp
    have hk' : k ≤ vault.length := by
      have := List.mem_range.mp hk
      omega
    exact hkp ▸ mem_vaultPaths_of_isSome vault _ (hall k hk')
  have hnd : ((List.range (vault.length + 1)).map (cardFilePath folder safeName)).Nodup :=
    (List.nodup_range _).map (cardFilePath_injective folder safeName)
  have hle := (List.subperm_of_subset hnd hsub).length_le
  simp only [List.length_map, List.length_range] at hle
  have : (vaultPaths vault).length = vault.length := List.length_map _ _
  omega

/-- The `while` loop of `CardManager.createNewCard`, fuelled: starting from
candidate index `start`, return the first index whose candidate path is not
occupied by an existing vault file. -/
def findFreeIdx (vault : Vault) (folder safeName : String) : Nat → Nat → Option Nat
  | 0, _ => none
  | fuel + 1, k =>
      if (vaultGet (cardFilePath folder safeName k) vault).isSome then
        findFreeIdx vault folder safeName fuel (k + 1)
      else some k

theorem findFreeIdx_spec (vault : Vault) (folder safeName : String) :
    ∀ (fuel start : Nat),
    (∃ j, j < fuel ∧
      (vaultGet (cardFilePath folder safeName (start + j)) vault).isSome = false) →
    ∃ m, findFreeIdx vault folder safeName fuel start = some m ∧
      (vaultGet (cardFilePath folder safeName m) vault).isSome = false ∧
      start ≤ m ∧
      ∀ i, start ≤ i → i < m →
        (vaultGet (cardFilePath folder safeName i) vault).isSome = true := by
  intro fuel
  induction fuel with
  | zero =>
      rintro start ⟨j, hj, -⟩
      omega
  | succ f ih =>
      rintro start ⟨j, hj, hfree⟩
      rw [findFreeIdx]
      by_cases hocc : (vaultGet (cardFilePath folder safeName start) vault).isSome = true
      · rw [if_pos hocc]
        have hj0 : j ≠ 0 := by
          rintro rfl
          rw [Nat.add_zero] at hfree
          rw [hfree] at hocc
          exact Bool.noConfusion hocc
        obtain ⟨m, hm, hfreem, hstart, hall⟩ := ih (start + 1)
          ⟨j - 1, by omega, by
            rw [show start + 1 + (j - 1) = start + j by omega]
            exact hfree⟩
        refine ⟨m, hm, hfreem, by omega, ?_⟩
        intro i hi1 hi2
        by_cases hie : i = start
        · exact hie ▸ hocc
        · exact hall i (by omega) hi2
      · rw [if_neg hocc]
        refine ⟨start, rfl, ?_, le_refl _, ?_⟩
        · cases hs : (vaultGet (cardFilePath folder safeName start) vault).isSome
          · rfl
          · exact absurd hs hocc
        · intro i h1 h2
          omega

/-- Split a line's characters at the first colon. -/
def splitAtColon : List Char → Option (List Char × List Char)
  | [] => none
  | c :: rest =>
      if c = ':' then some ([], rest)
      else match splitAtColon rest with
        | some (k, v) => some (c :: k, v)
        | none => none

theorem splitAtColon_append (k v : List Char) (hk : ':' ∉ k) :
    splitAtColon (k ++ ':' :: v) = some (k, v) := by
  induction k with
  | nil =>
      rw [List.nil_append, splitAtColon]
      simp
  | cons c rest ih =>
      have hc : ¬ c = ':' := fun h => hk (h ▸ List.mem_cons_self c rest)
      have hrest : ':' ∉ rest := fun h => hk (List.mem_cons_of_mem c h)
      rw [List.cons_append, splitAtColon, if_neg hc, ih hrest]

/-- Read one `key: value` frontmatter line. -/
def parseFMLine (line : String) : Option (String × String) :=
  match splitAtColon line.data with
  | some (k, ' ' :: v) => some (String.mk k, String.mk v)
  | _ => none

/-- The fields of the leading `--- … ---` frontmatter block of a file's
lines. -/
def frontmatterFields (lines : List String) : List (String × String) :=
  match lines with
  | "---" :: rest => (rest.takeWhile (fun l => l ≠ "---")).filterMap parseFMLine
  | _ => []

/-- The file content written by `CardManager.createNewCard` (the source joins
these lines with a newline before calling `vault.create`; the embedding
keeps the line list). -/
def cardContentLines (gp columnName : String) (orderIndex : Nat) (title : String) :
    List String :=
  ["---", gp ++ ": " ++ columnName, ORDER_PROPERTY ++ ": " ++ Nat.repr orderIndex,
    "---", "", "# " ++ title, ""]

/-- `CardManager.createNewCard` (`CardManager`, card manager module): with no
group-by property configured it only shows a notice; otherwise it walks the
candidate paths until one is free of an existing vault file and creates the
card file there with the templated frontmatter.  `folder` stands for the
`getTargetFolder()` result.  The returned pair is the created path and
content; `none` also covers the (provably unreachable) fuel exhaustion of
the search. -/
def createNewCard (vault : Vault) (folder : String) (groupByProp : Option String)
    (title columnName : String) (orderIndex : Nat) : Option (String × List String) :=
  match groupByProp with
  | none => none
  | some gp =>
    let safeName := sanitizeFilename title
    match findFreeIdx vault folder safeName (vault.length + 1) 0 with
    | none => none
    | some k =>
        some (cardFilePath folder safeName k, cardContentLines gp columnName orderIndex title)

theorem kv_line_data (key val : String) :
    (key ++ ": " ++ val).data = key.data ++ ':' :: ' ' :: val.data := by
  have h : (": " : String).data = [':', ' '] := rfl
  simp [String.data_append, h]

theorem stringMk_data (s : String) : String.mk s.data = s := rfl

theorem parseFMLine_kv (key val : String) (hk : ':' ∉ key.data) :
    parseFMLine (key ++ ": " ++ val) = some (key, val) := by
  rw [parseFMLine, kv_line_data, splitAtColon_append _ _ hk]
  show some (String.mk key.data, String.mk val.data) = some (key, val)
  rw [stringMk_data, stringMk_data]

theorem kv_line_ne_sep (key val : String) : (key ++ ": " ++ val) ≠ "---" := by
  intro h
  have hd := congrArg String.data h
  rw [kv_line_data] at hd
  have hmem : ':' ∈ key.data ++ ':' :: ' ' :: val.data :=
    List.mem_append_right _ (List.mem_cons_self _ _)
  rw [hd] at hmem
  exact absurd hmem (by decide)

theorem frontmatterFields_cardContentLines (gp columnName : String) (orderIndex : Nat)
    (title : String) (hgp : ':' ∉ gp.data) :
    frontmatterFields (cardContentLines gp columnName orderIndex title) =
      [(gp, columnName), (ORDER_PROPERTY, Nat.repr orderIndex)] := by
  have hord : ':' ∉ (ORDER_PROPERTY : String).data := by decide
  have h1 : (gp ++ ": " ++ columnName) ≠ "---" := kv_line_ne_sep gp columnName
  have h2 : (ORDER_PROPERTY ++ ": " ++ Nat.repr orderIndex) ≠ "---" :=
    kv_line_ne_sep _ _
  rw [cardContentLines, frontmatterFields]
  simp [h1, h2, parseFMLine_kv gp columnName hgp,
    parseFMLine_kv ORDER_PROPERTY (Nat.repr orderIndex) hord]

/-- C7: `createNewCard` chooses the first path among `folder/name.md`,
`folder/name 1.md`, `folder/name 2.md`, … that no existing vault file
occupies (`name` being the sanitized title), and the created file's
frontmatter block sets the group-by property to the column name and
`kanban_order` to the (decimal) order index. -/
theorem createNewCard_fresh_path_and_frontmatter
    (vault : Vault) (folder : String) (groupByProp : Option String) (gp : String)
    (title columnName : String) (orderIndex : Nat)
    (hgp : groupByProp = some gp) (hcolon : ':' ∉ gp.data) :
    ∃ k, createNewCard vault folder groupByProp title columnName orderIndex =
        some (cardFilePath folder (sanitizeFilename title) k,
          cardContentLines gp columnName orderIndex title) ∧
      (vaultGet (cardFilePath folder (sanitizeFilename title) k) vault).isSome = false ∧
      (∀ j, j < k →
        (vaultGet (cardFilePath folder (sanitizeFilename title) j) vault).isSome = true) ∧
      frontmatterFields (cardContentLines gp columnName orderIndex title) =
        [(gp, columnName), (ORDER_PROPERTY, Nat.repr orderIndex)] := by
  subst hgp
  obtain ⟨k0, hk0, hfree⟩ := exists_free_index vault folder (sanitizeFilename title)
  obtain ⟨m, hm, hfreem, -, hall⟩ := findFreeIdx_spec vault folder (sanitizeFilename title)
    (vault.length + 1) 0 ⟨k0, by omega, by rw [Nat.zero_add]; exact hfree⟩
  refine ⟨m, ?_, hfreem, fun j hj => hall j (Nat.zero_le j) hj,
    frontmatterFields_cardContentLines gp columnName orderIndex title hcolon⟩
  rw [createNewCard]
  simp [hm]

/-- Witness for C7: `Tasks/Foo.md` is occupied, so the card is created at
`Tasks/Foo 1.md`. -/
theorem createNewCard_fresh_path_and_frontmatter_witness :
    ((some "status" : Option String) = some "status" ∧ ':' ∉ ("status" : String).data) ∧
    ∃ k, createNewCard [("Tasks/Foo.md", [])] "Tasks" (some "status") "Foo" "Todo" 2 =
        some (cardFilePath "Tasks" (sanitizeFilename "Foo") k,
          cardContentLines "status" "Todo" 2 "Foo") ∧
      (vaultGet (cardFilePath "Tasks" (sanitizeFilename "Foo") k)
        [("Tasks/Foo.md", [])]).isSome = false ∧
      (∀ j, j < k → (vaultGet (cardFilePath "Tasks" (sanitizeFilename "Foo") j)
        [("Tasks/Foo.md", [])]).isSome = true) ∧
      frontmatterFields (cardContentLines "status" "Todo" 2 "Foo") =
        [("status", "Todo"), (ORDER_PROPERTY, Nat.repr 2)] :=
  ⟨⟨rfl, by decide⟩,
   createNewCard_fresh_path_and_frontmatter [("Tasks/Foo.md", [])] "Tasks"
     (some "status") "status" "Foo" "Todo" 2 rfl (by decide)⟩

/-- C10: the output of `sanitizeFilename` contains none of the unsafe
characters `\ / : * ? " < > |`, and `sanitizeFilename` is idempotent. -/
theorem sanitizeFilename_safe_and_idempotent (s : String) :
    (∀ c ∈ (sanitizeFilename s).data, c ∉ UNSAFE_FILENAME_CHARS) ∧
    sanitizeFilename (sanitizeFilename s) = sanitizeFilename s := by
  constructor
  · intro c hc
    have hc' : c ∈ (s.data.filter (fun c => !(UNSAFE_FILENAME_CHARS.contains c))) := hc
    have := List.of_mem_filter hc'
    simpa using this
  · simp only [sanitizeFilename, List.filter_filter]
    congr 1
    apply List.filter_congr
    intro c _
    cases h : UNSAFE_FILENAME_CHARS.contains c <;> simp [h]

end BaseBoard
